import Mathlib

/-!
# Deterministic Miller-Rabin over unsigned 64-bit integers

A shallow embedding of `miller_rabin.c`.  Values of type `uint64_t` are natural
numbers below `2 ^ 64`; every C addition and subtraction is reduced modulo
`2 ^ 64` explicitly, so wrap-around is part of the model.  Each `while`/`for`
loop is a structurally recursive function on a fuel argument; a loop that is
still running when its fuel is used up yields `Fault.outOfFuel`, a remainder by
zero yields `Fault.divByZero`, and a read of the never-assigned local
`inconclusive` yields `Fault.uninitRead`.
-/

namespace MillerRabin

/-- Ways in which an execution of the C code can fail to produce a value. -/
inductive Fault where
  | divByZero
  | uninitRead
  | outOfFuel
  deriving DecidableEq

deriving instance DecidableEq for Except

/-- Modelled from the spec: the header `miller_rabin.h` is not among the sources;
the spec describes PRIME and COMPOSITE as the two terminal classification
outcomes of a two-valued result type. -/
inductive Verdict where
  | PRIME
  | COMPOSITE
  deriving DecidableEq

/-- Modelled from the spec: the macro `BASELEN` comes from the missing header
`miller_rabin.h`; the spec fixes the witness set as a sequence of 12 bases. -/
def BASELEN : Nat := 12

/-- The number of values of a `uint64_t`. -/
def U64 : Nat := 2 ^ 64

/-- Unsigned 64-bit addition `x + y` (wraps). -/
def wadd (x y : Nat) : Nat := (x + y) % U64

/-- Unsigned 64-bit subtraction `x - y` (wraps), for operands below `2 ^ 64`. -/
def wsub (x y : Nat) : Nat := (x + U64 - y) % U64

/-- Embedding of `mod_add` (miller_rabin.c:15-29). -/
def mod_add (a b m : Nat) : Except Fault Nat :=
  if a < m ∧ b < m then
    if a ≥ wsub m b then
      .ok (wsub a (wsub m b))
    else
      .ok (wadd a b)
  else
    if m = 0 then .error Fault.divByZero
    else .ok (wadd (a % m) (b % m) % m)

/-- Embedding of `mod_sub` (miller_rabin.c:35-54). -/
def mod_sub (a b m : Nat) : Except Fault Nat :=
  if a < m ∧ b < m then
    if a < b then
      .ok (wadd a (wsub m b))
    else
      .ok (wsub a b)
  else
    if m = 0 then .error Fault.divByZero
    else if a < b then
      .ok (wadd a (wsub m b) % m)
    else
      .ok (wsub a b % m)

/-- The `while (b > 0)` loop of `mod_mul` (miller_rabin.c:71-76), with the
accumulator `r` as explicit state. -/
def mod_mul_loop : Nat → Nat → Nat → Nat → Nat → Except Fault Nat
  | 0, r, _, b, _ => if b > 0 then .error Fault.outOfFuel else .ok r
  | fuel + 1, r, a, b, m =>
    if b > 0 then do
      let r1 ← if b &&& 1 ≠ 0 then mod_add r a m else pure r
      let a1 ← mod_add a a m
      mod_mul_loop fuel r1 a1 (b >>> 1) m
    else .ok r

/-- Embedding of `mod_mul` (miller_rabin.c:67-78): one iteration per bit of `b`. -/
def mod_mul (a b m : Nat) : Except Fault Nat :=
  mod_mul_loop 64 0 a b m

/-- The `while (b > 0)` loop of `mod_pow` (miller_rabin.c:97-102). -/
def mod_pow_loop : Nat → Nat → Nat → Nat → Nat → Except Fault Nat
  | 0, r, _, b, _ => if b > 0 then .error Fault.outOfFuel else .ok r
  | fuel + 1, r, a, b, m =>
    if b > 0 then do
      let r1 ← if b &&& 1 ≠ 0 then mod_mul r a m else pure r
      let a1 ← mod_mul a a m
      mod_pow_loop fuel r1 a1 (b >>> 1) m
    else .ok r

/-- Embedding of `mod_pow` (miller_rabin.c:92-104). -/
def mod_pow (a b m : Nat) : Except Fault Nat :=
  mod_pow_loop 64 1 a b m

/-- The witness bases `a[BASELEN]` (miller_rabin.c:115). -/
def a : List Nat := [2, 3, 5, 7, 11, 13, 17, 19, 23, 29, 31, 37]

/-- The decomposition loop `while (q % 2 == 0)` (miller_rabin.c:136-139). -/
def decompose_loop : Nat → Nat → Nat → Except Fault (Nat × Nat)
  | 0, k, q => if q % 2 = 0 then .error Fault.outOfFuel else .ok (k, q)
  | fuel + 1, k, q =>
    if q % 2 = 0 then decompose_loop fuel (wadd k 1) (q >>> 1) else .ok (k, q)

/-- The inner loop `for (j = 0; j < k; j++)` (miller_rabin.c:157-162) for the
base `ai`; the result says whether the loop was left through `break`, that is
whether `inconclusive` was set to 1. -/
def inner_loop (ai q n k : Nat) : Nat → Nat → Except Fault Bool
  | 0, j => if j < k then .error Fault.outOfFuel else .ok false
  | fuel + 1, j =>
    if j < k then do
      let x ← mod_pow ai q n
      let e ← mod_pow 2 j (wsub n 1)
      let y ← mod_pow x e n
      if y = wsub n 1 then .ok true else inner_loop ai q n k fuel (j + 1)
    else .ok false

/-- The outer loop `for (i = 0; i < BASELEN; i++)` (miller_rabin.c:144-167).
The state `inc` is the local `inconclusive`: `none` while it has never been
assigned.  Entries of `a` past its initialisers read as 0, as in C. -/
def witness_loop (n k q : Nat) : Nat → Nat → Option Nat → Except Fault Verdict
  | 0, i, _ => if i < BASELEN then .error Fault.outOfFuel else .ok Verdict.PRIME
  | fuel + 1, i, inc =>
    if i < BASELEN then
      if a.getD i 0 < wsub n 1 then do
        let x ← mod_pow (a.getD i 0) q n
        if x = 1 then
          witness_loop n k q fuel (i + 1) (some 1)
        else do
          let found ← inner_loop (a.getD i 0) q n k k 0
          if found then witness_loop n k q fuel (i + 1) (some 1)
          else .ok Verdict.COMPOSITE
      else
        match inc with
        | none => .error Fault.uninitRead
        | some v =>
          if v = 0 then .ok Verdict.COMPOSITE
          else witness_loop n k q fuel (i + 1) (some v)
    else .ok Verdict.PRIME

/-- Embedding of `miller_rabin` (miller_rabin.c:123-170). -/
def miller_rabin (n : Nat) : Except Fault Verdict :=
  if n = 2 ∨ n = 3 then .ok Verdict.PRIME
  else if n = 1 ∨ n % 2 = 0 then .ok Verdict.COMPOSITE
  else do
    let (k, q) ← decompose_loop 64 0 (wsub n 1)
    witness_loop n k q BASELEN 0 none

/-! ## Reference notions over unbounded naturals -/

/-- The two Miller-Rabin conditions for a base `ai`, where `n - 1 = 2 ^ k * q`,
stated over unbounded naturals: `ai ^ q mod n = 1`, or
`(ai ^ q mod n) ^ (2 ^ j) mod n = n - 1` for some `j < k`. -/
def passes (n k q ai : Nat) : Prop :=
  ai ^ q % n = 1 ∨ ∃ j, j < k ∧ (ai ^ q % n) ^ (2 ^ j) % n = n - 1

/-- Square-and-multiply with unbounded multiplication, `(r * a ^ b) mod m`; it
serves to evaluate `passes` on large concrete inputs. -/
def pow_mod_fuel : Nat → Nat → Nat → Nat → Nat → Nat
  | 0, r, _, _, m => r % m
  | fuel + 1, r, a, b, m =>
    if b = 0 then r % m
    else pow_mod_fuel fuel (if b % 2 = 1 then r * a % m else r) (a * a % m) (b / 2) m

/-- Executable form of `passes` for a 64-bit `q` and `k < 64`. -/
def passes_exec (n k q ai : Nat) : Bool :=
  pow_mod_fuel 64 1 ai q n == 1
    || (List.range k).any fun j => pow_mod_fuel 64 1 (pow_mod_fuel 64 1 ai q n) (2 ^ j) n == n - 1

/-- The per-base condition in the wording of the specification, with the power
`(ai ^ q) ^ (2 ^ j)` taken over unbounded naturals before the reduction modulo `n`. -/
def spec_base_ok (n k q ai : Nat) : Prop :=
  ai ^ q % n = 1 ∨ ∃ j, j < k ∧ (ai ^ q) ^ (2 ^ j) % n = n - 1

instance spec_base_ok_decidable (n k q ai : Nat) : Decidable (spec_base_ok n k q ai) := by
  unfold spec_base_ok
  infer_instance

/-- The verdict in the wording of the specification, for `n - 1 = 2 ^ k * q`: only
the bases below `n - 1` are consulted; PRIME when each of them meets one of the
two conditions, COMPOSITE when one of them meets neither. -/
def miller_rabin_spec (n k q : Nat) : Verdict :=
  if ∀ ai ∈ a.filter (fun x => decide (x < n - 1)), spec_base_ok n k q ai then Verdict.PRIME
  else Verdict.COMPOSITE

/-! ## The kernel over unbounded naturals -/

/-- The text of `mod_add` with `+` and `-` of the naturals instead of the 64-bit ones. -/
def mod_add_exact (a b m : Nat) : Except Fault Nat :=
  if a < m ∧ b < m then
    if a ≥ m - b then
      .ok (a - (m - b))
    else
      .ok (a + b)
  else
    if m = 0 then .error Fault.divByZero
    else .ok ((a % m + b % m) % m)

/-- The loop of `mod_mul` on top of `mod_add_exact`. -/
def mod_mul_loop_exact : Nat → Nat → Nat → Nat → Nat → Except Fault Nat
  | 0, r, _, b, _ => if b > 0 then .error Fault.outOfFuel else .ok r
  | fuel + 1, r, a, b, m =>
    if b > 0 then do
      let r1 ← if b &&& 1 ≠ 0 then mod_add_exact r a m else pure r
      let a1 ← mod_add_exact a a m
      mod_mul_loop_exact fuel r1 a1 (b >>> 1) m
    else .ok r

/-- The text of `mod_mul` on top of `mod_add_exact`. -/
def mod_mul_exact (a b m : Nat) : Except Fault Nat :=
  mod_mul_loop_exact 64 0 a b m

/-- The loop of `mod_pow` on top of `mod_mul_exact`. -/
def mod_pow_loop_exact : Nat → Nat → Nat → Nat → Nat → Except Fault Nat
  | 0, r, _, b, _ => if b > 0 then .error Fault.outOfFuel else .ok r
  | fuel + 1, r, a, b, m =>
    if b > 0 then do
      let r1 ← if b &&& 1 ≠ 0 then mod_mul_exact r a m else pure r
      let a1 ← mod_mul_exact a a m
      mod_pow_loop_exact fuel r1 a1 (b >>> 1) m
    else .ok r

/-- The text of `mod_pow` on top of `mod_mul_exact`. -/
def mod_pow_exact (a b m : Nat) : Except Fault Nat :=
  mod_pow_loop_exact 64 1 a b m

/-! ## Runs of `miller_rabin` with their observable events -/

/-- What a run of `miller_rabin` does that the claims speak about: a call of
`mod_pow` with its three arguments, and a read of the local `inconclusive` at
`if (!inconclusive)` in iteration `i`, with whether base `a[i]` was skipped by the
guard and the value read (`none`: the local was never assigned). -/
inductive Event where
  | powCall (a b m : Nat)
  | flagRead (i : Nat) (skipped : Bool) (v : Option Nat)
  deriving DecidableEq

/-- A computation together with the events it has produced so far. -/
def Traced (α : Type) : Type := List Event × Except Fault α

/-- A value, with no event. -/
def Traced.ret {α : Type} (x : α) : Traced α := ([], .ok x)

/-- A computation of the fault monad, with no event. -/
def Traced.lift {α : Type} (x : Except Fault α) : Traced α := ([], x)

/-- Sequencing: the events of `x`, then those of `f` if `x` produced a value. -/
def Traced.andThen {α β : Type} (x : Traced α) (f : α → Traced β) : Traced β :=
  match x.2 with
  | .ok v => (x.1 ++ (f v).1, (f v).2)
  | .error e => (x.1, .error e)

instance : Monad Traced where
  pure := Traced.ret
  bind := Traced.andThen

/-- A call `mod_pow(a, b, m)`, recorded. -/
def pow_traced (a b m : Nat) : Traced Nat :=
  ([Event.powCall a b m], mod_pow a b m)

/-- A read of `inconclusive` at `if (!inconclusive)` (miller_rabin.c:165), recorded. -/
def read_flag_traced (i : Nat) (skipped : Bool) (inc : Option Nat) : Traced Nat :=
  ([Event.flagRead i skipped inc],
    match inc with
    | none => .error Fault.uninitRead
    | some v => .ok v)

/-- The inner loop (miller_rabin.c:157-162) with its events. -/
def inner_loop_traced (ai q n k : Nat) : Nat → Nat → Traced Bool
  | 0, j => if j < k then Traced.lift (.error Fault.outOfFuel) else Traced.ret false
  | fuel + 1, j =>
    if j < k then do
      let x ← pow_traced ai q n
      let e ← pow_traced 2 j (wsub n 1)
      let y ← pow_traced x e n
      if y = wsub n 1 then Traced.ret true else inner_loop_traced ai q n k fuel (j + 1)
    else Traced.ret false

/-- The outer loop (miller_rabin.c:144-167) with its events.  After a tested base
the flag holds 1 if the inner loop was left through `break` and 0 otherwise; after
`continue` the read at line 165 is not reached. -/
def witness_loop_traced (n k q : Nat) : Nat → Nat → Option Nat → Traced Verdict
  | 0, i, _ =>
    if i < BASELEN then Traced.lift (.error Fault.outOfFuel) else Traced.ret Verdict.PRIME
  | fuel + 1, i, inc =>
    if i < BASELEN then
      if a.getD i 0 < wsub n 1 then do
        let x ← pow_traced (a.getD i 0) q n
        if x = 1 then
          witness_loop_traced n k q fuel (i + 1) (some 1)
        else do
          let found ← inner_loop_traced (a.getD i 0) q n k k 0
          let v ← read_flag_traced i false (some (if found then 1 else 0))
          if v = 0 then Traced.ret Verdict.COMPOSITE
          else witness_loop_traced n k q fuel (i + 1) (some v)
      else do
        let v ← read_flag_traced i true inc
        if v = 0 then Traced.ret Verdict.COMPOSITE
        else witness_loop_traced n k q fuel (i + 1) (some v)
    else Traced.ret Verdict.PRIME

/-- The function `miller_rabin` (miller_rabin.c:123-170) with its events. -/
def miller_rabin_traced (n : Nat) : Traced Verdict :=
  if n = 2 ∨ n = 3 then Traced.ret Verdict.PRIME
  else if n = 1 ∨ n % 2 = 0 then Traced.ret Verdict.COMPOSITE
  else do
    let kq ← Traced.lift (decompose_loop 64 0 (wsub n 1))
    witness_loop_traced n kq.1 kq.2 BASELEN 0 none

theorem U64_val : U64 = 18446744073709551616 := by decide

theorem wadd_of_lt {x y : Nat} (h : x + y < U64) : wadd x y = x + y := by
  unfold wadd
  exact Nat.mod_eq_of_lt h

theorem wsub_of_le {x y : Nat} (hxy : y ≤ x) (hx : x < U64) : wsub x y = x - y := by
  unfold wsub
  rw [U64_val] at *
  omega

theorem wsub_of_gt {x y : Nat} (hxy : x < y) : wsub x y = x + U64 - y := by
  unfold wsub
  rw [U64_val] at *
  omega

/-- In the fallback path of `mod_add` the sum of the two remainders fits in 64 bits. -/
theorem mod_add_slow_no_wrap {a b m : Nat} (ha : a < U64) (hb : b < U64) (hm : 0 < m)
    (h : ¬ (a < m ∧ b < m)) : a % m + b % m < U64 := by
  have h1 : a % m < m := Nat.mod_lt _ hm
  have h2 : b % m < m := Nat.mod_lt _ hm
  have h3 : a % m ≤ a := Nat.mod_le _ _
  have h4 : b % m ≤ b := Nat.mod_le _ _
  have h5 : m ≤ a → a % m ≤ a - m := fun hma => by
    rw [Nat.mod_eq_sub_mod hma]
    exact Nat.mod_le _ _
  have h6 : m ≤ b → b % m ≤ b - m := fun hmb => by
    rw [Nat.mod_eq_sub_mod hmb]
    exact Nat.mod_le _ _
  by_cases hma : m ≤ a
  · have := h5 hma
    omega
  · have hmb : m ≤ b := by omega
    have := h6 hmb
    omega

/-- The value of `mod_add` for a positive modulus. -/
theorem mod_add_eq {a b m : Nat} (ha : a < U64) (hb : b < U64) (hm : 0 < m)
    (hm64 : m < U64) : mod_add a b m = .ok ((a + b) % m) := by
  unfold mod_add
  by_cases h : a < m ∧ b < m
  · obtain ⟨h1, h2⟩ := h
    have hs : wsub m b = m - b := wsub_of_le (le_of_lt h2) hm64
    rw [if_pos ⟨h1, h2⟩, hs]
    by_cases hge : a ≥ m - b
    · rw [if_pos hge, wsub_of_le hge ha]
      have hle : m ≤ a + b := by omega
      have hlt : a + b - m < m := by omega
      rw [Nat.mod_eq_sub_mod hle, Nat.mod_eq_of_lt hlt]
      congr 1
      omega
    · rw [if_neg hge]
      have hlt : a + b < m := by omega
      rw [Nat.mod_eq_of_lt hlt, wadd_of_lt (by omega)]
  · rw [if_neg h, if_neg (by omega), wadd_of_lt (mod_add_slow_no_wrap ha hb hm h),
      ← Nat.add_mod]

theorem mod_add_lt {a b m r : Nat} (ha : a < U64) (hb : b < U64) (hm : 0 < m)
    (hm64 : m < U64) (h : mod_add a b m = .ok r) : r < m := by
  rw [mod_add_eq ha hb hm hm64] at h
  cases h
  exact Nat.mod_lt _ hm

/-! ## The loops of `mod_mul` and `mod_pow` -/

theorem land_one_ne_zero_iff (b : Nat) : b &&& 1 ≠ 0 ↔ b % 2 = 1 := by
  rw [Nat.and_one_is_mod]
  omega

theorem shiftRight_one_eq (b : Nat) : b >>> 1 = b / 2 := by
  rw [Nat.shiftRight_eq_div_pow]

/-- Loop invariant of `mod_mul`: with accumulator `r < m` the loop returns
`(r + a * b) mod m`, and `fuel` iterations are enough when `b < 2 ^ fuel`. -/
theorem mod_mul_loop_eq (m : Nat) (hm : 0 < m) (hm64 : m < U64) :
    ∀ (fuel r a b : Nat), r < m → a < U64 → b < 2 ^ fuel →
      mod_mul_loop fuel r a b m = .ok ((r + a * b) % m) := by
  intro fuel
  induction fuel with
  | zero =>
    intro r a b hr _ hb
    have hb0 : b = 0 := by simpa using hb
    subst hb0
    simp [mod_mul_loop, Nat.mod_eq_of_lt hr]
  | succ fuel ih =>
    intro r a b hr ha hb
    unfold mod_mul_loop
    by_cases hb0 : b > 0
    · rw [if_pos hb0]
      have hr64 : r < U64 := lt_trans hr hm64
      have ha1 : (a + a) % m < U64 := lt_trans (Nat.mod_lt _ hm) hm64
      have hb2 : b / 2 < 2 ^ fuel := by
        rw [pow_succ] at hb
        omega
      have hsplit : 2 * (b / 2) + b % 2 = b := Nat.div_add_mod b 2
      by_cases hodd : b % 2 = 1
      · rw [if_pos ((land_one_ne_zero_iff b).2 hodd), mod_add_eq hr64 ha hm hm64,
          mod_add_eq ha ha hm hm64, shiftRight_one_eq]
        simp only [bind, Except.bind]
        rw [ih _ _ _ (Nat.mod_lt _ hm) ha1 hb2]
        congr 1
        have key : (r + a) % m + (a + a) % m * (b / 2) ≡ r + a + (a + a) * (b / 2) [MOD m] :=
          Nat.ModEq.add (Nat.mod_modEq _ _) (Nat.ModEq.mul_right _ (Nat.mod_modEq _ _))
        have e : r + a + (a + a) * (b / 2) = r + a * b := by
          conv_rhs => rw [← hsplit, hodd]
          ring
        rw [e] at key
        exact key
      · rw [if_neg (fun hc => hodd ((land_one_ne_zero_iff b).1 hc)),
          mod_add_eq ha ha hm hm64, shiftRight_one_eq]
        simp only [bind, Except.bind, pure, Except.pure]
        rw [ih _ _ _ hr ha1 hb2]
        congr 1
        have key : r + (a + a) % m * (b / 2) ≡ r + (a + a) * (b / 2) [MOD m] :=
          Nat.ModEq.add rfl (Nat.ModEq.mul_right _ (Nat.mod_modEq _ _))
        have hev : b % 2 = 0 := by omega
        have e : r + (a + a) * (b / 2) = r + a * b := by
          conv_rhs => rw [← hsplit, hev]
          ring
        rw [e] at key
        exact key
    · have hb0' : b = 0 := by omega
      subst hb0'
      simp [Nat.mod_eq_of_lt hr]

/-- The value of `mod_mul` for a positive modulus. -/
theorem mod_mul_eq {a b m : Nat} (ha : a < U64) (hb : b < U64) (hm : 0 < m)
    (hm64 : m < U64) : mod_mul a b m = .ok (a * b % m) := by
  unfold mod_mul
  rw [mod_mul_loop_eq m hm hm64 64 0 a b hm ha (by rw [U64_val] at hb; omega)]
  simp

/-- Loop invariant of `mod_pow`: with accumulator `r < m` the loop returns
`(r * a ^ b) mod m`, and `fuel` iterations are enough when `b < 2 ^ fuel`. -/
theorem mod_pow_loop_eq (m : Nat) (hm : 0 < m) (hm64 : m < U64) :
    ∀ (fuel r a b : Nat), r < m → a < U64 → b < 2 ^ fuel →
      mod_pow_loop fuel r a b m = .ok ((r * a ^ b) % m) := by
  intro fuel
  induction fuel with
  | zero =>
    intro r a b hr _ hb
    have hb0 : b = 0 := by simpa using hb
    subst hb0
    simp [mod_pow_loop, Nat.mod_eq_of_lt hr]
  | succ fuel ih =>
    intro r a b hr ha hb
    unfold mod_pow_loop
    by_cases hb0 : b > 0
    · rw [if_pos hb0]
      have hr64 : r < U64 := lt_trans hr hm64
      have ha1 : a * a % m < U64 := lt_trans (Nat.mod_lt _ hm) hm64
      have hb2 : b / 2 < 2 ^ fuel := by
        rw [pow_succ] at hb
        omega
      have hsplit : 2 * (b / 2) + b % 2 = b := Nat.div_add_mod b 2
      by_cases hodd : b % 2 = 1
      · rw [if_pos ((land_one_ne_zero_iff b).2 hodd), mod_mul_eq hr64 ha hm hm64,
          mod_mul_eq ha ha hm hm64, shiftRight_one_eq]
        simp only [bind, Except.bind]
        rw [ih _ _ _ (Nat.mod_lt _ hm) ha1 hb2]
        congr 1
        have key : r * a % m * (a * a % m) ^ (b / 2) ≡ r * a * (a * a) ^ (b / 2) [MOD m] :=
          Nat.ModEq.mul (Nat.mod_modEq _ _) (Nat.ModEq.pow _ (Nat.mod_modEq _ _))
        have e : r * a * (a * a) ^ (b / 2) = r * a ^ b := by
          conv_rhs => rw [← hsplit, hodd]
          rw [pow_succ, pow_mul, sq]
          ring
        rw [e] at key
        exact key
      · rw [if_neg (fun hc => hodd ((land_one_ne_zero_iff b).1 hc)),
          mod_mul_eq ha ha hm hm64, shiftRight_one_eq]
        simp only [bind, Except.bind, pure, Except.pure]
        rw [ih _ _ _ hr ha1 hb2]
        congr 1
        have key : r * (a * a % m) ^ (b / 2) ≡ r * (a * a) ^ (b / 2) [MOD m] :=
          Nat.ModEq.mul rfl (Nat.ModEq.pow _ (Nat.mod_modEq _ _))
        have hev : b % 2 = 0 := by omega
        have e : r * (a * a) ^ (b / 2) = r * a ^ b := by
          conv_rhs => rw [← hsplit, hev]
          rw [Nat.add_zero, pow_mul, sq]
        rw [e] at key
        exact key
    · have hb0' : b = 0 := by omega
      subst hb0'
      simp [Nat.mod_eq_of_lt hr]

/-- The value of `mod_pow` for a modulus above 1. -/
theorem mod_pow_eq {a b m : Nat} (ha : a < U64) (hb : b < U64) (hm : 1 < m)
    (hm64 : m < U64) : mod_pow a b m = .ok (a ^ b % m) := by
  unfold mod_pow
  rw [mod_pow_loop_eq m (by omega) hm64 64 1 a b hm ha (by rw [U64_val] at hb; omega)]
  simp

/-! ## The loops of `miller_rabin` -/

/-- The decomposition loop strips exactly the `d` factors 2 of `2 ^ d * q0`, `q0` odd. -/
theorem decompose_loop_eq (q0 : Nat) (hq0 : q0 % 2 = 1) :
    ∀ (d fuel k : Nat), d ≤ fuel → k + d < U64 →
      decompose_loop fuel k (2 ^ d * q0) = .ok (k + d, q0) := by
  intro d
  induction d with
  | zero =>
    intro fuel k _ _
    cases fuel <;> simp [decompose_loop, hq0]
  | succ d ih =>
    intro fuel k hf hk
    cases fuel with
    | zero => omega
    | succ fuel =>
      have hev : 2 ^ (d + 1) * q0 % 2 = 0 := by
        rw [pow_succ, mul_assoc, mul_comm, mul_assoc]
        exact Nat.mul_mod_right _ _
      have hhalf : (2 ^ (d + 1) * q0) >>> 1 = 2 ^ d * q0 := by
        rw [shiftRight_one_eq, pow_succ, mul_assoc, mul_comm 2 q0, ← mul_assoc]
        exact Nat.mul_div_cancel _ (by decide)
      unfold decompose_loop
      rw [if_pos hev, hhalf, wadd_of_lt (by omega), ih fuel (k + 1) (by omega) (by omega)]
      congr 2
      omega

theorem two_pow_lt_U64 {k : Nat} (h : 2 ^ k < U64) : k < 64 := by
  by_contra hk
  have h64 : (2 : Nat) ^ 64 ≤ 2 ^ k := Nat.pow_le_pow_right (by decide) (by omega)
  rw [U64_val] at h
  omega

/-- The inner loop finds out whether some `j` in `[j0, k)` meets the second condition. -/
theorem inner_loop_eq (ai q n k : Nat) (hai : ai < U64) (hq : q < U64) (hn : 2 < n)
    (hn64 : n < U64) (hk : 2 ^ k ≤ n - 1) :
    ∀ (fuel j0 : Nat), k ≤ j0 + fuel →
      ∃ b, inner_loop ai q n k fuel j0 = .ok b
        ∧ (b = true ↔ ∃ j, j0 ≤ j ∧ j < k ∧ (ai ^ q % n) ^ (2 ^ j) % n = n - 1) := by
  have hk64 : k < 64 := two_pow_lt_U64 (by omega)
  intro fuel
  induction fuel with
  | zero =>
    intro j0 hj
    refine ⟨false, by simp [inner_loop]; omega, ?_⟩
    constructor
    · intro h
      cases h
    · rintro ⟨j, h1, h2, _⟩
      omega
  | succ fuel ih =>
    intro j0 hj
    unfold inner_loop
    by_cases hlt : j0 < k
    · have hsub : wsub n 1 = n - 1 := wsub_of_le (by omega) hn64
      have hpow : 2 ^ j0 < 2 ^ k := Nat.pow_lt_pow_right (by decide) hlt
      have he : 2 ^ j0 % (n - 1) = 2 ^ j0 := Nat.mod_eq_of_lt (by omega)
      have hx : ai ^ q % n < n := Nat.mod_lt _ (by omega)
      rw [if_pos hlt, hsub, mod_pow_eq hai hq (by omega) hn64,
        mod_pow_eq (by rw [U64_val]; decide) (by rw [U64_val]; omega) (by omega) (by omega)]
      simp only [bind, Except.bind]
      rw [he, mod_pow_eq (by omega) (by omega) (by omega) hn64]
      simp only []
      by_cases hy : (ai ^ q % n) ^ (2 ^ j0) % n = n - 1
      · rw [if_pos hy]
        exact ⟨true, rfl, fun _ => ⟨j0, le_refl _, hlt, hy⟩, fun _ => rfl⟩
      · rw [if_neg hy]
        obtain ⟨b, hb, hiff⟩ := ih (j0 + 1) (by omega)
        refine ⟨b, hb, hiff.trans ?_⟩
        constructor
        · rintro ⟨j, h1, h2, h3⟩
          exact ⟨j, by omega, h2, h3⟩
        · rintro ⟨j, h1, h2, h3⟩
          refine ⟨j, ?_, h2, h3⟩
          by_contra hc
          have : j = j0 := by omega
          subst this
          exact hy h3
    · rw [if_neg hlt]
      refine ⟨false, rfl, ?_⟩
      constructor
      · intro h
        cases h
      · rintro ⟨j, h1, h2, _⟩
        omega

theorem a_getD_le (i : Nat) : a.getD i 0 ≤ 37 := by
  match i with
  | 0 | 1 | 2 | 3 | 4 | 5 | 6 | 7 | 8 | 9 | 10 | 11 => decide
  | i + 12 => simp [a]

theorem a_getD_ge : ∀ i, i < BASELEN → 2 ≤ a.getD i 0 := by
  decide

theorem a_getD_le_first : a.getD 0 0 ≤ 2 := by
  decide

/-- One iteration of the outer loop, written out. -/
theorem witness_loop_succ (n k q fuel i : Nat) (inc : Option Nat) :
    witness_loop n k q (fuel + 1) i inc =
      if i < BASELEN then
        if a.getD i 0 < wsub n 1 then
          mod_pow (a.getD i 0) q n >>= fun x =>
            if x = 1 then witness_loop n k q fuel (i + 1) (some 1)
            else
              inner_loop (a.getD i 0) q n k k 0 >>= fun found =>
                if found then witness_loop n k q fuel (i + 1) (some 1)
                else .ok Verdict.COMPOSITE
        else
          match inc with
          | none => .error Fault.uninitRead
          | some v =>
            if v = 0 then .ok Verdict.COMPOSITE
            else witness_loop n k q fuel (i + 1) (some v)
      else .ok Verdict.PRIME := rfl

/-- The outer loop, started at index `i` with `inconclusive` either already 1 or
about to be assigned: it ends in PRIME exactly when every remaining base below
`n - 1` meets one of the two conditions, and in COMPOSITE otherwise. -/
theorem witness_loop_eq (n k q : Nat) (hq : q < U64) (hn : 2 < n) (hn64 : n < U64)
    (hk : 2 ^ k ≤ n - 1) :
    ∀ (fuel i : Nat) (inc : Option Nat), BASELEN ≤ i + fuel →
      (inc = some 1 ∨ a.getD i 0 < n - 1) →
      ∃ v, witness_loop n k q fuel i inc = .ok v
        ∧ (v = Verdict.PRIME ↔
            ∀ idx, i ≤ idx → idx < BASELEN → a.getD idx 0 < n - 1 →
              passes n k q (a.getD idx 0)) := by
  have hsub : wsub n 1 = n - 1 := wsub_of_le (by omega) hn64
  intro fuel
  induction fuel with
  | zero =>
    intro i inc hi _
    refine ⟨Verdict.PRIME, by simp [witness_loop]; omega, ?_⟩
    exact ⟨fun _ idx h1 h2 => by omega, fun _ => rfl⟩
  | succ fuel ih =>
    intro i inc hi hinc
    rw [witness_loop_succ]
    by_cases hlt : i < BASELEN
    · rw [if_pos hlt, hsub]
      have hai : a.getD i 0 < U64 := by
        have := a_getD_le i
        rw [U64_val]
        omega
      have hstep : ∀ P : Nat → Prop, (∀ idx, i ≤ idx → idx < BASELEN → P idx) ↔
          (P i ∧ ∀ idx, i + 1 ≤ idx → idx < BASELEN → P idx) := by
        intro P
        constructor
        · intro h
          exact ⟨h i (le_refl _) hlt, fun idx h1 h2 => h idx (by omega) h2⟩
        · rintro ⟨h0, h⟩ idx h1 h2
          by_cases e : idx = i
          · subst e
            exact h0
          · exact h idx (by omega) h2
      rw [hstep]
      by_cases ht : a.getD i 0 < n - 1
      · rw [if_pos ht, mod_pow_eq hai hq (by omega) hn64]
        simp only [bind, Except.bind]
        by_cases hx : a.getD i 0 ^ q % n = 1
        · rw [if_pos hx]
          obtain ⟨v, hv, hiff⟩ := ih (i + 1) (some 1) (by omega) (Or.inl rfl)
          refine ⟨v, hv, hiff.trans ?_⟩
          exact ⟨fun h => ⟨fun _ => Or.inl hx, h⟩, fun h => h.2⟩
        · rw [if_neg hx]
          obtain ⟨b, hb, hbiff⟩ := inner_loop_eq (a.getD i 0) q n k hai hq hn hn64 hk k 0
            (by omega)
          rw [hb]
          simp only []
          cases b with
          | true =>
            obtain ⟨v, hv, hiff⟩ := ih (i + 1) (some 1) (by omega) (Or.inl rfl)
            obtain ⟨j, _, hj, hj2⟩ := hbiff.1 rfl
            refine ⟨v, by simpa using hv, hiff.trans ?_⟩
            exact ⟨fun h => ⟨fun _ => Or.inr ⟨j, hj, hj2⟩, h⟩, fun h => h.2⟩
          | false =>
            refine ⟨Verdict.COMPOSITE, by simp, ?_⟩
            constructor
            · intro h
              cases h
            · rintro ⟨h0, _⟩
              rcases h0 ht with h1 | ⟨j, hj, hj2⟩
              · exact absurd h1 hx
              · have := hbiff.2 ⟨j, Nat.zero_le _, hj, hj2⟩
                cases this
      · rw [if_neg ht]
        rcases hinc with hinc | hinc
        · subst hinc
          obtain ⟨v, hv, hiff⟩ := ih (i + 1) (some 1) (by omega) (Or.inl rfl)
          refine ⟨v, by simpa using hv, hiff.trans ?_⟩
          exact ⟨fun h => ⟨fun h0 => absurd h0 ht, h⟩, fun h => h.2⟩
        · exact absurd hinc ht
    · rw [if_neg hlt]
      exact ⟨Verdict.PRIME, rfl, fun _ idx h1 h2 => by omega, fun _ => rfl⟩

/-- Binding a pair that is known to be a value. -/
theorem bind_pair_of_eq {β : Type} (x : Except Fault (Nat × Nat)) (k q : Nat)
    (F : Nat → Nat → Except Fault β) (hx : x = .ok (k, q)) :
    (do
      let (k, q) ← x
      F k q) = F k q := by
  subst hx
  rfl

/-- For odd `n ≥ 5` with `n - 1 = 2 ^ k * q`, `q` odd, `miller_rabin n` returns a
verdict, and it is PRIME exactly when every base below `n - 1` meets one of the
two Miller-Rabin conditions. -/
theorem miller_rabin_eq (n k q : Nat) (h5 : 5 ≤ n) (hodd : n % 2 = 1) (hn64 : n < U64)
    (hq : q % 2 = 1) (hkq : 2 ^ k * q = n - 1) :
    ∃ v, miller_rabin n = .ok v
      ∧ (v = Verdict.PRIME ↔
          ∀ i, i < BASELEN → a.getD i 0 < n - 1 → passes n k q (a.getD i 0)) := by
  have h23 : ¬ (n = 2 ∨ n = 3) := by omega
  have h1e : ¬ (n = 1 ∨ n % 2 = 0) := by omega
  have hqpos : 0 < q := by omega
  have hk : 2 ^ k ≤ n - 1 := by
    rw [← hkq]
    exact Nat.le_mul_of_pos_right _ hqpos
  have hqle : q ≤ n - 1 := by
    rw [← hkq]
    exact Nat.le_mul_of_pos_left _ (Nat.pow_pos (by decide))
  have hk64 : k < 64 := two_pow_lt_U64 (by omega)
  have hdec : decompose_loop 64 0 (n - 1) = .ok (k, q) := by
    have := decompose_loop_eq q hq k 64 0 (by omega) (by rw [U64_val]; omega)
    rw [hkq] at this
    simpa using this
  obtain ⟨v, hv, hiff⟩ := witness_loop_eq n k q (by omega) (by omega) hn64 hk BASELEN 0 none
    (by omega) (Or.inr (by simp [a]; omega))
  refine ⟨v, ?_, hiff.trans ⟨fun h i hi => h i (Nat.zero_le _) hi, fun h i _ hi => h i hi⟩⟩
  have hdec2 : decompose_loop 64 0 (wsub n 1) = .ok (k, q) := by
    rw [wsub_of_le (by omega) hn64]
    exact hdec
  unfold miller_rabin
  rw [if_neg h23, if_neg h1e]
  exact (bind_pair_of_eq _ k q (fun k q => witness_loop n k q BASELEN 0 none) hdec2).trans hv

/-! ## Primes meet the Miller-Rabin conditions -/

theorem sq_chain_field {p : Nat} [Fact p.Prime] :
    ∀ (k : Nat) (x : ZMod p), x ^ (2 ^ k) = 1 → x = 1 ∨ ∃ j, j < k ∧ x ^ (2 ^ j) = -1 := by
  intro k
  induction k with
  | zero =>
    intro x hx
    left
    simpa using hx
  | succ k ih =>
    intro x hx
    rw [pow_succ, pow_mul] at hx
    rcases sq_eq_one_iff.1 hx with h | h
    · rcases ih x h with h1 | ⟨j, hj, h2⟩
      · exact Or.inl h1
      · exact Or.inr ⟨j, by omega, h2⟩
    · exact Or.inr ⟨k, by omega, h⟩

/-- A prime `p` with `p - 1 = 2 ^ k * q` meets one of the two conditions for
every base not divisible by `p`. -/
theorem prime_passes (p k q ai : Nat) (hp : p.Prime) (hkq : 2 ^ k * q = p - 1)
    (h0 : 0 < ai) (hlt : ai < p) : passes p k q ai := by
  haveI : Fact p.Prime := ⟨hp⟩
  have hp1 : 1 < p := hp.one_lt
  have hne : (ai : ZMod p) ≠ 0 := by
    rw [Ne, ZMod.natCast_zmod_eq_zero_iff_dvd]
    intro hd
    have := Nat.le_of_dvd h0 hd
    omega
  have h1 : ((ai : ZMod p) ^ q) ^ (2 ^ k) = 1 := by
    rw [← pow_mul, mul_comm, hkq]
    exact ZMod.pow_card_sub_one_eq_one hne
  have hneg : ((p - 1 : Nat) : ZMod p) = -1 := by
    rw [Nat.cast_sub (le_of_lt hp1), ZMod.natCast_self]
    simp
  unfold passes
  rcases sq_chain_field k _ h1 with h | ⟨j, hj, h⟩
  · left
    have e : ((ai ^ q : Nat) : ZMod p) = ((1 : Nat) : ZMod p) := by
      push_cast
      exact h
    rw [ZMod.natCast_eq_natCast_iff', Nat.mod_eq_of_lt hp1] at e
    exact e
  · right
    refine ⟨j, hj, ?_⟩
    have e : (((ai ^ q % p) ^ (2 ^ j) : Nat) : ZMod p) = ((p - 1 : Nat) : ZMod p) := by
      rw [hneg]
      push_cast
      rw [ZMod.natCast_mod]
      push_cast
      exact h
    rw [ZMod.natCast_eq_natCast_iff', Nat.mod_eq_of_lt (by omega : p - 1 < p)] at e
    exact e

/-! ## Evaluating the conditions on concrete inputs -/

theorem pow_mod_fuel_eq (m : Nat) :
    ∀ (fuel r a b : Nat), b < 2 ^ fuel → pow_mod_fuel fuel r a b m = r * a ^ b % m := by
  intro fuel
  induction fuel with
  | zero =>
    intro r a b hb
    have hb0 : b = 0 := by simpa using hb
    subst hb0
    simp [pow_mod_fuel]
  | succ fuel ih =>
    intro r a b hb
    unfold pow_mod_fuel
    by_cases hb0 : b = 0
    · subst hb0
      simp
    · rw [if_neg hb0]
      have hb2 : b / 2 < 2 ^ fuel := by
        rw [pow_succ] at hb
        omega
      have hsplit : 2 * (b / 2) + b % 2 = b := Nat.div_add_mod b 2
      rw [ih _ _ _ hb2]
      by_cases hodd : b % 2 = 1
      · rw [if_pos hodd]
        have key : r * a % m * (a * a % m) ^ (b / 2) ≡ r * a * (a * a) ^ (b / 2) [MOD m] :=
          Nat.ModEq.mul (Nat.mod_modEq _ _) (Nat.ModEq.pow _ (Nat.mod_modEq _ _))
        have e : r * a * (a * a) ^ (b / 2) = r * a ^ b := by
          conv_rhs => rw [← hsplit, hodd]
          rw [pow_succ, pow_mul, sq]
          ring
        rw [e] at key
        exact key
      · rw [if_neg hodd]
        have key : r * (a * a % m) ^ (b / 2) ≡ r * (a * a) ^ (b / 2) [MOD m] :=
          Nat.ModEq.mul rfl (Nat.ModEq.pow _ (Nat.mod_modEq _ _))
        have hev : b % 2 = 0 := by omega
        have e : r * (a * a) ^ (b / 2) = r * a ^ b := by
          conv_rhs => rw [← hsplit, hev]
          rw [Nat.add_zero, pow_mul, sq]
        rw [e] at key
        exact key

theorem passes_of_exec (n k q ai : Nat) (hq : q < 2 ^ 64) (hk : k ≤ 64)
    (h : passes_exec n k q ai = true) : passes n k q ai := by
  unfold passes_exec at h
  rw [pow_mod_fuel_eq n 64 1 ai q hq, Nat.one_mul] at h
  rw [Bool.or_eq_true, List.any_eq_true] at h
  rcases h with h | ⟨j, hj, h⟩
  · exact Or.inl (by simpa using h)
  · have hjk : j < k := List.mem_range.1 hj
    have hj64 : 2 ^ j < 2 ^ 64 := Nat.pow_lt_pow_right (by decide) (by omega)
    rw [pow_mod_fuel_eq n 64 1 _ _ hj64, Nat.one_mul] at h
    exact Or.inr ⟨j, hjk, by simpa using h⟩

/-- The 64-bit prime `2 ^ 64 - 59`, where `2 ^ 64 - 60 = 2 ^ 2 * 4611686018427387889`,
is classified PRIME: all twelve bases meet one of the two conditions. -/
theorem miller_rabin_largest_prime :
    miller_rabin 18446744073709551557 = .ok Verdict.PRIME := by
  obtain ⟨v, hv, hiff⟩ := miller_rabin_eq 18446744073709551557 2 4611686018427387889
    (by decide) (by decide) (by rw [U64_val]; decide) (by decide) (by decide)
  have hall : ∀ i, i < BASELEN →
      passes_exec 18446744073709551557 2 4611686018427387889 (a.getD i 0) = true := by
    decide!
  have hv2 : v = Verdict.PRIME :=
    hiff.2 fun i hi _ => passes_of_exec _ _ _ _ (by decide) (by decide) (hall i hi)
  rw [hv, hv2]

/-! ## Claims on the primality tester -/

/-- C1: for every prime `n` below `2 ^ 64`, `miller_rabin n` returns PRIME: for
`n = 2` and `n = 3` by the early return, and for every odd prime `n ≥ 5` because
each tested base (those below `n - 1`) meets one of the two Miller-Rabin
conditions. -/
theorem miller_rabin_accepts_primes (n : Nat) (hn : n < 2 ^ 64) (hp : n.Prime) :
    miller_rabin n = .ok Verdict.PRIME := by
  by_cases h23 : n = 2 ∨ n = 3
  · unfold miller_rabin
    rw [if_pos h23]
  · have h2 := hp.two_le
    have hodd : n % 2 = 1 := by
      rcases hp.eq_two_or_odd with h | h
      · omega
      · exact h
    have h5 : 5 ≤ n := by omega
    obtain ⟨k, q, hqodd, hkq⟩ := Nat.exists_eq_two_pow_mul_odd (n := n - 1) (by omega)
    have hq : q % 2 = 1 := Nat.odd_iff.1 hqodd
    obtain ⟨v, hv, hiff⟩ := miller_rabin_eq n k q h5 hodd hn hq hkq.symm
    have hv2 : v = Verdict.PRIME := hiff.2 fun i hi ht =>
      prime_passes n k q _ hp hkq.symm (lt_of_lt_of_le (by decide) (a_getD_ge i hi))
        (lt_of_lt_of_le ht (Nat.sub_le n 1))
    rw [hv, hv2]

theorem miller_rabin_accepts_primes_witness :
    miller_rabin 13 = .ok Verdict.PRIME :=
  miller_rabin_accepts_primes 13 (by decide) (by norm_num)

/-- C3: `miller_rabin` agrees with the known table: PRIME for 2, 3, 17 and
18446744073709551557; COMPOSITE for 1, 4, the Carmichael number 561, 0, and for
every even `n` other than 2. -/
theorem miller_rabin_known_table :
    miller_rabin 2 = .ok Verdict.PRIME
      ∧ miller_rabin 3 = .ok Verdict.PRIME
      ∧ miller_rabin 17 = .ok Verdict.PRIME
      ∧ miller_rabin 18446744073709551557 = .ok Verdict.PRIME
      ∧ miller_rabin 1 = .ok Verdict.COMPOSITE
      ∧ miller_rabin 4 = .ok Verdict.COMPOSITE
      ∧ miller_rabin 561 = .ok Verdict.COMPOSITE
      ∧ miller_rabin 0 = .ok Verdict.COMPOSITE
      ∧ ∀ n, n % 2 = 0 → n ≠ 2 → miller_rabin n = .ok Verdict.COMPOSITE := by
  refine ⟨by decide, by decide, by decide, miller_rabin_largest_prime, by decide, by decide,
    by decide, by decide, ?_⟩
  intro n hev hne
  unfold miller_rabin
  rw [if_neg (by omega), if_pos (Or.inr hev)]

theorem miller_rabin_known_table_witness :
    miller_rabin 18446744073709551614 = .ok Verdict.COMPOSITE :=
  miller_rabin_known_table.2.2.2.2.2.2.2.2 18446744073709551614 (by decide) (by decide)

/-! ## Claims on the modular arithmetic kernel -/

/-- C4: for all unsigned 64-bit `a`, `b` and every modulus `m > 0`, `mod_add a b m`
returns `((a mod m) + (b mod m)) mod m`, which is `(a + b) mod m` computed over
unbounded naturals; operands at or above `m` or near `2 ^ 64 - 1` are included. -/
theorem mod_add_correct (a b m : Nat) (ha : a < 2 ^ 64) (hb : b < 2 ^ 64)
    (hm : 0 < m) (hm64 : m < 2 ^ 64) :
    mod_add a b m = .ok ((a % m + b % m) % m) ∧ (a % m + b % m) % m = (a + b) % m := by
  have h := mod_add_eq (a := a) (b := b) (m := m) ha hb hm hm64
  rw [Nat.add_mod] at h
  exact ⟨h, (Nat.add_mod a b m).symm⟩

theorem mod_add_correct_witness :
    mod_add 18446744073709551615 18446744073709551614 18446744073709551613
        = .ok ((18446744073709551615 % 18446744073709551613
            + 18446744073709551614 % 18446744073709551613) % 18446744073709551613)
      ∧ (18446744073709551615 % 18446744073709551613
            + 18446744073709551614 % 18446744073709551613) % 18446744073709551613
        = (18446744073709551615 + 18446744073709551614) % 18446744073709551613 :=
  mod_add_correct 18446744073709551615 18446744073709551614 18446744073709551613
    (by decide) (by decide) (by decide) (by decide)

/-- C5: for all unsigned 64-bit `a`, `b` and every modulus `m > 0`, `mod_mul a b m`
returns `(a * b) mod m` with the product taken over unbounded naturals; neither
operand has to be below `m`. -/
theorem mod_mul_correct (a b m : Nat) (ha : a < 2 ^ 64) (hb : b < 2 ^ 64)
    (hm : 0 < m) (hm64 : m < 2 ^ 64) :
    mod_mul a b m = .ok (a * b % m) :=
  mod_mul_eq ha hb hm hm64

theorem mod_mul_correct_witness :
    mod_mul 18446744073709551615 18446744073709551614 18446744073709551613
      = .ok (18446744073709551615 * 18446744073709551614 % 18446744073709551613) :=
  mod_mul_correct 18446744073709551615 18446744073709551614 18446744073709551613
    (by decide) (by decide) (by decide) (by decide)

/-- C6: for all unsigned 64-bit `a`, `b` and every modulus `m > 1`, `mod_pow a b m`
returns `(a ^ b) mod m` with the power taken over unbounded naturals, where
`a ^ 0 = 1` and in particular `0 ^ 0 = 1`. -/
theorem mod_pow_correct (a b m : Nat) (ha : a < 2 ^ 64) (hb : b < 2 ^ 64)
    (hm : 1 < m) (hm64 : m < 2 ^ 64) :
    mod_pow a b m = .ok (a ^ b % m) :=
  mod_pow_eq ha hb hm hm64

theorem mod_pow_correct_witness :
    mod_pow 0 0 18446744073709551615 = .ok (0 ^ 0 % 18446744073709551615) :=
  mod_pow_correct 0 0 18446744073709551615 (by decide) (by decide) (by decide) (by decide)

/-- C7 (failing input): with modulus 1 and exponent 0 the loop of `mod_pow` is never
entered and the initial accumulator 1 is returned, which is not below the
modulus and is not 0. -/
theorem mod_pow_modulus_one_exponent_zero :
    mod_pow 0 0 1 = .ok 1 ∧ ¬ (1 < 1) ∧ (0 ^ 0 % 1 = 0) := by
  decide

/-- C8: for all unsigned 64-bit `a`, `b` and every modulus `m > 0`, whether or not
the operands are below `m`, each of `mod_add`, `mod_sub` and `mod_mul` returns a
value strictly below `m`. -/
theorem kernel_result_lt_modulus (a b m : Nat) (ha : a < 2 ^ 64) (hb : b < 2 ^ 64)
    (hm : 0 < m) (hm64 : m < 2 ^ 64) :
    (∃ r, mod_add a b m = .ok r ∧ r < m) ∧ (∃ r, mod_sub a b m = .ok r ∧ r < m)
      ∧ (∃ r, mod_mul a b m = .ok r ∧ r < m) := by
  refine ⟨⟨_, mod_add_eq ha hb hm hm64, Nat.mod_lt _ hm⟩, ?_,
    ⟨_, mod_mul_eq ha hb hm hm64, Nat.mod_lt _ hm⟩⟩
  unfold mod_sub
  by_cases h : a < m ∧ b < m
  · obtain ⟨h1, h2⟩ := h
    rw [if_pos ⟨h1, h2⟩]
    by_cases hab : a < b
    · rw [if_pos hab, wsub_of_le (le_of_lt h2) hm64]
      refine ⟨_, rfl, ?_⟩
      rw [wadd_of_lt (by have := U64_val; omega)]
      omega
    · rw [if_neg hab]
      refine ⟨_, rfl, ?_⟩
      rw [wsub_of_le (by omega) ha]
      omega
  · rw [if_neg h, if_neg (by omega)]
    by_cases hab : a < b
    · rw [if_pos hab]
      exact ⟨_, rfl, Nat.mod_lt _ hm⟩
    · rw [if_neg hab]
      exact ⟨_, rfl, Nat.mod_lt _ hm⟩

theorem kernel_result_lt_modulus_witness :
    (∃ r, mod_add 18446744073709551615 7 3 = .ok r ∧ r < 3)
      ∧ (∃ r, mod_sub 18446744073709551615 7 3 = .ok r ∧ r < 3)
      ∧ (∃ r, mod_mul 18446744073709551615 7 3 = .ok r ∧ r < 3) :=
  kernel_result_lt_modulus 18446744073709551615 7 3
    (by decide) (by decide) (by decide) (by decide)

/-- C9 (failing input): for `a = 0`, `b = 5`, `m = 3` the slow path of `mod_sub`
computes `m - b` with wrap-around (`2 ^ 64 - 2`) and returns `(2 ^ 64 - 2) mod 3 = 2`;
adding `b` back with `mod_add` gives 1, while `a mod m` is 0. -/
theorem mod_sub_slow_path_round_trip_fails :
    mod_sub 0 5 3 = .ok 2 ∧ mod_add 2 5 3 = .ok 1 ∧ 0 % 3 = 0
      ∧ (mod_sub 0 5 3 >>= fun r => mod_add r 5 3) ≠ .ok (0 % 3) := by
  decide

/-- C10: for every modulus `m > 0` and operands `a < m`, `b < m`, `mod_sub a b m`
returns the mathematical `(a - b) mod m`, the unique `r` in `[0, m)` congruent to
`a - b`; and the 64-bit operations it executes agree with the unbounded ones:
for `a < b` it returns `a + (m - b)` with `b ≤ m` and `a + (m - b) < 2 ^ 64`, and
otherwise `a - b` with `b ≤ a`. -/
theorem mod_sub_reduced_correct (a b m : Nat) (hm : 0 < m) (hm64 : m < 2 ^ 64)
    (ha : a < m) (hb : b < m) :
    (∃ r, mod_sub a b m = .ok r ∧ r < m ∧ (r : Int) = ((a : Int) - (b : Int)) % (m : Int))
      ∧ (a < b → b ≤ m ∧ a + (m - b) < 2 ^ 64 ∧ mod_sub a b m = .ok (a + (m - b)))
      ∧ (¬ a < b → b ≤ a ∧ mod_sub a b m = .ok (a - b)) := by
  have h64 : U64 = 2 ^ 64 := rfl
  have hfast : a < b → mod_sub a b m = .ok (a + (m - b)) := fun hab => by
    unfold mod_sub
    rw [if_pos ⟨ha, hb⟩, if_pos hab, wsub_of_le (le_of_lt hb) (h64 ▸ hm64),
      wadd_of_lt (by rw [h64]; omega)]
  have hfast2 : ¬ a < b → mod_sub a b m = .ok (a - b) := fun hab => by
    unfold mod_sub
    rw [if_pos ⟨ha, hb⟩, if_neg hab, wsub_of_le (by omega) (by rw [h64]; omega)]
  refine ⟨?_, fun hab => ⟨le_of_lt hb, by omega, hfast hab⟩,
    fun hab => ⟨by omega, hfast2 hab⟩⟩
  by_cases hab : a < b
  · refine ⟨_, hfast hab, by omega, ?_⟩
    have e : ((a : Int) - b) % m = ((a : Int) - b + m) % m := by
      rw [Int.add_emod_self]
    rw [e, Int.emod_eq_of_lt (by omega) (by omega)]
    omega
  · refine ⟨_, hfast2 hab, by omega, ?_⟩
    rw [Int.emod_eq_of_lt (by omega) (by omega)]
    omega

theorem mod_sub_reduced_correct_witness :
    (∃ r, mod_sub 3 18446744073709551614 18446744073709551615 = .ok r
        ∧ r < 18446744073709551615
        ∧ (r : Int) = ((3 : Nat) - (18446744073709551614 : Nat) : Int)
            % (18446744073709551615 : Nat))
      ∧ (3 < 18446744073709551614 → 18446744073709551614 ≤ 18446744073709551615
          ∧ 3 + (18446744073709551615 - 18446744073709551614) < 2 ^ 64
          ∧ mod_sub 3 18446744073709551614 18446744073709551615
              = .ok (3 + (18446744073709551615 - 18446744073709551614)))
      ∧ (¬ 3 < 18446744073709551614 → 18446744073709551614 ≤ 3
          ∧ mod_sub 3 18446744073709551614 18446744073709551615
              = .ok (3 - 18446744073709551614)) :=
  mod_sub_reduced_correct 3 18446744073709551614 18446744073709551615
    (by decide) (by decide) (by decide) (by decide)

/-! ## Further claims on `mod_pow` and on the decomposition -/

/-- C12: for every `a` and every modulus `m > 1`, `mod_pow a 0 m` is 1; and for every
exponent `b > 0` and every modulus `m > 1`, `mod_pow 0 b m` is 0. -/
theorem mod_pow_exponent_zero_base_zero (a b m : Nat) (ha : a < 2 ^ 64) (hb : b < 2 ^ 64)
    (hm : 1 < m) (hm64 : m < 2 ^ 64) :
    mod_pow a 0 m = .ok 1 ∧ (0 < b → mod_pow 0 b m = .ok 0) := by
  constructor
  · rw [mod_pow_eq ha (by decide) hm hm64, pow_zero, Nat.mod_eq_of_lt hm]
  · intro hb0
    rw [mod_pow_eq (by decide) hb hm hm64, zero_pow (by omega), Nat.zero_mod]

theorem mod_pow_exponent_zero_base_zero_witness :
    mod_pow 18446744073709551615 0 2 = .ok 1
      ∧ (0 < 18446744073709551615 → mod_pow 0 18446744073709551615 2 = .ok 0) :=
  mod_pow_exponent_zero_base_zero 18446744073709551615 18446744073709551615 2
    (by decide) (by decide) (by decide) (by decide)

/-- C14: for every odd `n ≥ 5` below `2 ^ 64` the decomposition loop terminates and
leaves `k` and `q` with `n - 1 = 2 ^ k * q`, `q` odd and `1 ≤ k ≤ 63`. -/
theorem decomposition_correct (n : Nat) (h5 : 5 ≤ n) (hodd : n % 2 = 1) (hn : n < 2 ^ 64) :
    ∃ k q, decompose_loop 64 0 (wsub n 1) = .ok (k, q)
      ∧ n - 1 = 2 ^ k * q ∧ q % 2 = 1 ∧ 1 ≤ k ∧ k ≤ 63 := by
  have hn64 : n < U64 := hn
  have hne : n - 1 ≠ 0 := by omega
  have hev : (n - 1) % 2 = 0 := by omega
  have hlt : n - 1 < U64 := by omega
  obtain ⟨k, q, hqodd, hkq⟩ := Nat.exists_eq_two_pow_mul_odd hne
  have hq : q % 2 = 1 := Nat.odd_iff.1 hqodd
  have hqpos : 0 < q := by omega
  have hk : 2 ^ k ≤ n - 1 := by
    rw [hkq]
    exact Nat.le_mul_of_pos_right _ hqpos
  have hk64 : k < 64 := two_pow_lt_U64 (lt_of_le_of_lt hk hlt)
  have hk1 : 1 ≤ k := by
    rcases Nat.eq_zero_or_pos k with h0 | h0
    · subst h0
      rw [pow_zero, Nat.one_mul] at hkq
      rw [hkq] at hev
      omega
    · exact h0
  have hdec := decompose_loop_eq q hq k 64 0 (by omega) (by rw [U64_val]; omega)
  rw [← hkq, Nat.zero_add] at hdec
  refine ⟨k, q, ?_, hkq, hq, hk1, by omega⟩
  rw [wsub_of_le (by omega) hn64]
  exact hdec

theorem decomposition_correct_witness :
    ∃ k q, decompose_loop 64 0 (wsub 18446744073709551557 1) = .ok (k, q)
      ∧ 18446744073709551557 - 1 = 2 ^ k * q ∧ q % 2 = 1 ∧ 1 ≤ k ∧ k ≤ 63 :=
  decomposition_correct 18446744073709551557 (by decide) (by decide) (by decide)

/-- C18: for every odd `n ≥ 5` with `n - 1 = 2 ^ k * q`, `q` odd, and every `j < k`,
`mod_pow 2 j (n - 1)` is exactly `2 ^ j`, because `2 ^ j < n - 1`; hence the second
check computes `(a ^ q) ^ (2 ^ j) mod n`, whether `n` is prime or composite. -/
theorem exponent_reduction_exact (n k q j ai : Nat) (h5 : 5 ≤ n) (hodd : n % 2 = 1)
    (hn : n < 2 ^ 64) (hq : q % 2 = 1) (hkq : n - 1 = 2 ^ k * q) (hj : j < k)
    (hai : ai < 2 ^ 64) :
    2 ^ j < n - 1 ∧ mod_pow 2 j (wsub n 1) = .ok (2 ^ j)
      ∧ (do
          let x ← mod_pow ai q n
          let e ← mod_pow 2 j (wsub n 1)
          mod_pow x e n) = .ok ((ai ^ q) ^ (2 ^ j) % n) := by
  have hn64 : n < U64 := hn
  have hlt : n - 1 < U64 := by omega
  have h1n : 1 < n := by omega
  have h1n1 : 1 < n - 1 := by omega
  have hqpos : 0 < q := by omega
  have hk : 2 ^ k ≤ n - 1 := by
    rw [hkq]
    exact Nat.le_mul_of_pos_right _ hqpos
  have hqle : q ≤ n - 1 := by
    rw [hkq]
    exact Nat.le_mul_of_pos_left _ (Nat.pow_pos (by decide))
  have hq64 : q < U64 := lt_of_le_of_lt hqle hlt
  have hk64 : k < 64 := two_pow_lt_U64 (lt_of_le_of_lt hk hlt)
  have hpow : 2 ^ j < 2 ^ k := Nat.pow_lt_pow_right (by decide) hj
  have hjlt : 2 ^ j < n - 1 := lt_of_lt_of_le hpow hk
  have hj64 : j < U64 := by
    rw [U64_val]
    omega
  have hx : ai ^ q % n < U64 := lt_trans (Nat.mod_lt _ (by omega)) hn64
  have he : mod_pow 2 j (wsub n 1) = .ok (2 ^ j) := by
    rw [wsub_of_le (le_of_lt h1n) hn64, mod_pow_eq (by decide) hj64 h1n1 hlt,
      Nat.mod_eq_of_lt hjlt]
  refine ⟨hjlt, he, ?_⟩
  rw [he, mod_pow_eq hai hq64 h1n hn64]
  simp only [bind, Except.bind]
  rw [mod_pow_eq hx (lt_trans hjlt hlt) h1n hn64, ← Nat.pow_mod]

theorem exponent_reduction_exact_witness :
    2 ^ 1 < 13 - 1 ∧ mod_pow 2 1 (wsub 13 1) = .ok (2 ^ 1)
      ∧ (do
          let x ← mod_pow 5 3 13
          let e ← mod_pow 2 1 (wsub 13 1)
          mod_pow x e 13) = .ok ((5 ^ 3) ^ (2 ^ 1) % 13) :=
  exponent_reduction_exact 13 2 3 1 5
    (by decide) (by decide) (by decide) (by decide) (by decide) (by decide) (by decide)

/-! ## Claims on the fast and slow paths -/

/-- C16 (counterexample): for `a = b = 2 ^ 64 - 2 < m = 2 ^ 64 - 1` the fast path of
`mod_add` returns `2 ^ 64 - 3`, which is `(a + b) mod m`, while the slow formula
`((a % m) + (b % m)) % m` evaluated in 64-bit arithmetic wraps and gives `2 ^ 64 - 4`. -/
theorem slow_path_formula_differs :
    18446744073709551614 < 18446744073709551615
      ∧ mod_add 18446744073709551614 18446744073709551614 18446744073709551615
          = .ok 18446744073709551613
      ∧ wadd (18446744073709551614 % 18446744073709551615)
            (18446744073709551614 % 18446744073709551615) % 18446744073709551615
          = 18446744073709551612
      ∧ mod_add 18446744073709551614 18446744073709551614 18446744073709551615
          ≠ .ok (wadd (18446744073709551614 % 18446744073709551615)
              (18446744073709551614 % 18446744073709551615) % 18446744073709551615) := by
  decide

/-- C16 (amended): for every modulus `m > 0` and operands `a < m`, `b < m`, with every
`+`, `-` and `%` evaluated modulo `2 ^ 64`: `mod_sub a b m` equals the slow formula
`a < b ? (a + (m - b)) % m : (a - b) % m`; and `mod_add a b m` equals the slow
formula `((a % m) + (b % m)) % m` exactly when `a + b < 2 ^ 64`, which holds for
every `m ≤ 2 ^ 63`. -/
theorem slow_path_formula_agrees (a b m : Nat) (hm : 0 < m) (hm64 : m < 2 ^ 64)
    (ha : a < m) (hb : b < m) :
    mod_sub a b m = .ok (if a < b then wadd a (wsub m b) % m else wsub a b % m)
      ∧ (mod_add a b m = .ok (wadd (a % m) (b % m) % m) ↔ a + b < 2 ^ 64)
      ∧ (m ≤ 2 ^ 63 → a + b < 2 ^ 64) := by
  have hU : U64 = 2 ^ 64 := rfl
  have hm' : m < U64 := hm64
  have ha64 : a < U64 := lt_trans ha hm'
  have hb64 : b < U64 := lt_trans hb hm'
  refine ⟨?_, ?_, fun h => by omega⟩
  · unfold mod_sub
    rw [if_pos ⟨ha, hb⟩]
    by_cases hab : a < b
    · rw [if_pos hab, if_pos hab, wsub_of_le (le_of_lt hb) hm', wadd_of_lt (by omega),
        Nat.mod_eq_of_lt (by omega)]
    · rw [if_neg hab, if_neg hab, wsub_of_le (by omega) ha64, Nat.mod_eq_of_lt (by omega)]
  · rw [mod_add_eq ha64 hb64 hm hm', Nat.mod_eq_of_lt ha, Nat.mod_eq_of_lt hb]
    constructor
    · intro h
      by_contra hwrap
      have hle : m ≤ a + b := by omega
      have hlt : a + b - m < m := by omega
      have hslow : a + b - 2 ^ 64 < m := by omega
      have hwadd : wadd a b = a + b - 2 ^ 64 := by
        unfold wadd
        rw [U64_val]
        omega
      rw [hwadd, Nat.mod_eq_of_lt hslow, Nat.mod_eq_sub_mod hle, Nat.mod_eq_of_lt hlt] at h
      have hval := Except.ok.inj h
      clear hwadd h
      omega
    · intro h
      rw [wadd_of_lt (by omega)]

theorem slow_path_formula_agrees_witness :
    mod_sub 3 5 9223372036854775808
        = .ok (if 3 < 5 then wadd 3 (wsub 9223372036854775808 5) % 9223372036854775808
            else wsub 3 5 % 9223372036854775808)
      ∧ (mod_add 3 5 9223372036854775808
          = .ok (wadd (3 % 9223372036854775808) (5 % 9223372036854775808)
              % 9223372036854775808) ↔ 3 + 5 < 2 ^ 64)
      ∧ (9223372036854775808 ≤ 2 ^ 63 → 3 + 5 < 2 ^ 64) :=
  slow_path_formula_agrees 3 5 9223372036854775808
    (by decide) (by decide) (by decide) (by decide)

theorem mod_add_exact_eq {a b m : Nat} (ha : a < U64) (hb : b < U64) (hm : 0 < m)
    (hm64 : m < U64) : mod_add a b m = mod_add_exact a b m := by
  unfold mod_add mod_add_exact
  by_cases h : a < m ∧ b < m
  · have h2 : b < m := h.2
    rw [if_pos h, if_pos h, wsub_of_le (le_of_lt h2) hm64]
    by_cases hge : a ≥ m - b
    · rw [if_pos hge, if_pos hge, wsub_of_le hge ha]
    · rw [if_neg hge, if_neg hge, wadd_of_lt (by omega)]
  · rw [if_neg h, if_neg h, wadd_of_lt (mod_add_slow_no_wrap ha hb hm h)]

theorem mod_mul_loop_exact_eq (m : Nat) (hm : 0 < m) (hm64 : m < U64) :
    ∀ (fuel r a b : Nat), r < U64 → a < U64 →
      mod_mul_loop fuel r a b m = mod_mul_loop_exact fuel r a b m := by
  intro fuel
  induction fuel with
  | zero =>
    intro r a b _ _
    simp [mod_mul_loop, mod_mul_loop_exact]
  | succ fuel ih =>
    intro r a b hr ha
    unfold mod_mul_loop mod_mul_loop_exact
    by_cases hb0 : b > 0
    · have ha1 : (a + a) % m < U64 := lt_trans (Nat.mod_lt _ hm) hm64
      have hr1 : (r + a) % m < U64 := lt_trans (Nat.mod_lt _ hm) hm64
      rw [if_pos hb0, if_pos hb0, ← mod_add_exact_eq hr ha hm hm64,
        ← mod_add_exact_eq ha ha hm hm64, mod_add_eq hr ha hm hm64, mod_add_eq ha ha hm hm64]
      by_cases hodd : b &&& 1 ≠ 0
      · rw [if_pos hodd, if_pos hodd]
        simp only [bind, Except.bind]
        exact ih _ _ _ hr1 ha1
      · rw [if_neg hodd, if_neg hodd]
        simp only [bind, Except.bind, pure, Except.pure]
        exact ih _ _ _ hr ha1
    · rw [if_neg hb0, if_neg hb0]

theorem mod_mul_exact_eq {a b m : Nat} (ha : a < U64) (hm : 0 < m) (hm64 : m < U64) :
    mod_mul a b m = mod_mul_exact a b m := by
  unfold mod_mul mod_mul_exact
  exact mod_mul_loop_exact_eq m hm hm64 64 0 a b (by decide) ha

theorem mod_pow_loop_exact_eq (m : Nat) (hm : 0 < m) (hm64 : m < U64) :
    ∀ (fuel r a b : Nat), r < U64 → a < U64 →
      mod_pow_loop fuel r a b m = mod_pow_loop_exact fuel r a b m := by
  intro fuel
  induction fuel with
  | zero =>
    intro r a b _ _
    simp [mod_pow_loop, mod_pow_loop_exact]
  | succ fuel ih =>
    intro r a b hr ha
    unfold mod_pow_loop mod_pow_loop_exact
    by_cases hb0 : b > 0
    · have ha1 : a * a % m < U64 := lt_trans (Nat.mod_lt _ hm) hm64
      have hr1 : r * a % m < U64 := lt_trans (Nat.mod_lt _ hm) hm64
      rw [if_pos hb0, if_pos hb0, ← mod_mul_exact_eq hr hm hm64,
        ← mod_mul_exact_eq ha hm hm64, mod_mul_eq hr ha hm hm64, mod_mul_eq ha ha hm hm64]
      by_cases hodd : b &&& 1 ≠ 0
      · rw [if_pos hodd, if_pos hodd]
        simp only [bind, Except.bind]
        exact ih _ _ _ hr1 ha1
      · rw [if_neg hodd, if_neg hodd]
        simp only [bind, Except.bind, pure, Except.pure]
        exact ih _ _ _ hr ha1
    · rw [if_neg hb0, if_neg hb0]

/-- C15: for all unsigned 64-bit `a`, `b` and every modulus `m > 0`, no 64-bit
addition or subtraction executed inside `mod_add`, `mod_mul` or `mod_pow` wraps.
All of them occur in `mod_add`: in its fast path `m - b`, `a - (m - b)` and `a + b`
have the value they have over the naturals (no borrow, no carry), and in its
fallback path `(a % m) + (b % m)` is below `2 ^ 64`; so `mod_add`, `mod_mul` and
`mod_pow`, and their loops from every 64-bit state, return what the same text
returns over unbounded naturals. -/
theorem kernel_never_wraps (a b m : Nat) (ha : a < 2 ^ 64) (hb : b < 2 ^ 64)
    (hm : 0 < m) (hm64 : m < 2 ^ 64) :
    (a < m ∧ b < m → b ≤ m ∧ wsub m b = m - b
        ∧ (a ≥ m - b → m - b ≤ a ∧ wsub a (wsub m b) = a - (m - b))
        ∧ (¬ a ≥ m - b → a + b < 2 ^ 64 ∧ wadd a b = a + b))
      ∧ (¬ (a < m ∧ b < m) →
          a % m + b % m < 2 ^ 64 ∧ wadd (a % m) (b % m) = a % m + b % m)
      ∧ mod_add a b m = mod_add_exact a b m
      ∧ mod_mul a b m = mod_mul_exact a b m
      ∧ mod_pow a b m = mod_pow_exact a b m
      ∧ (∀ fuel r x y, r < 2 ^ 64 → x < 2 ^ 64 →
          mod_mul_loop fuel r x y m = mod_mul_loop_exact fuel r x y m
            ∧ mod_pow_loop fuel r x y m = mod_pow_loop_exact fuel r x y m) := by
  have ha' : a < U64 := ha
  have hb' : b < U64 := hb
  have hm' : m < U64 := hm64
  refine ⟨?_, ?_, mod_add_exact_eq ha' hb' hm hm', mod_mul_exact_eq ha' hm hm', ?_, ?_⟩
  · rintro ⟨h1, h2⟩
    have hs : wsub m b = m - b := wsub_of_le (le_of_lt h2) hm'
    refine ⟨le_of_lt h2, hs, ?_, ?_⟩
    · intro hge
      rw [hs]
      exact ⟨hge, wsub_of_le hge ha'⟩
    · intro hge
      have hlt : a + b < 2 ^ 64 := by omega
      exact ⟨hlt, wadd_of_lt hlt⟩
  · intro h
    have hlt := mod_add_slow_no_wrap ha' hb' hm h
    exact ⟨hlt, wadd_of_lt hlt⟩
  · unfold mod_pow mod_pow_exact
    exact mod_pow_loop_exact_eq m hm hm' 64 1 a b (by decide) ha'
  · intro fuel r x y hr hx
    exact ⟨mod_mul_loop_exact_eq m hm hm' fuel r x y hr hx,
      mod_pow_loop_exact_eq m hm hm' fuel r x y hr hx⟩

theorem kernel_never_wraps_witness :
    (18446744073709551615 < 18446744073709551613 ∧ 18446744073709551614 < 18446744073709551613 →
        18446744073709551614 ≤ 18446744073709551613
        ∧ wsub 18446744073709551613 18446744073709551614
            = 18446744073709551613 - 18446744073709551614
        ∧ (18446744073709551615 ≥ 18446744073709551613 - 18446744073709551614 →
            18446744073709551613 - 18446744073709551614 ≤ 18446744073709551615
            ∧ wsub 18446744073709551615 (wsub 18446744073709551613 18446744073709551614)
                = 18446744073709551615 - (18446744073709551613 - 18446744073709551614))
        ∧ (¬ 18446744073709551615 ≥ 18446744073709551613 - 18446744073709551614 →
            18446744073709551615 + 18446744073709551614 < 2 ^ 64
            ∧ wadd 18446744073709551615 18446744073709551614
                = 18446744073709551615 + 18446744073709551614))
      ∧ (¬ (18446744073709551615 < 18446744073709551613
            ∧ 18446744073709551614 < 18446744073709551613) →
          18446744073709551615 % 18446744073709551613
              + 18446744073709551614 % 18446744073709551613 < 2 ^ 64
          ∧ wadd (18446744073709551615 % 18446744073709551613)
                (18446744073709551614 % 18446744073709551613)
              = 18446744073709551615 % 18446744073709551613
                + 18446744073709551614 % 18446744073709551613)
      ∧ mod_add 18446744073709551615 18446744073709551614 18446744073709551613
          = mod_add_exact 18446744073709551615 18446744073709551614 18446744073709551613
      ∧ mod_mul 18446744073709551615 18446744073709551614 18446744073709551613
          = mod_mul_exact 18446744073709551615 18446744073709551614 18446744073709551613
      ∧ mod_pow 18446744073709551615 18446744073709551614 18446744073709551613
          = mod_pow_exact 18446744073709551615 18446744073709551614 18446744073709551613
      ∧ (∀ fuel r x y, r < 2 ^ 64 → x < 2 ^ 64 →
          mod_mul_loop fuel r x y 18446744073709551613
              = mod_mul_loop_exact fuel r x y 18446744073709551613
            ∧ mod_pow_loop fuel r x y 18446744073709551613
              = mod_pow_loop_exact fuel r x y 18446744073709551613) :=
  kernel_never_wraps 18446744073709551615 18446744073709551614 18446744073709551613
    (by decide) (by decide) (by decide) (by decide)

/-! ## The tester against the wording of the specification -/

theorem passes_iff_spec_base_ok (n k q ai : Nat) : passes n k q ai ↔ spec_base_ok n k q ai := by
  unfold passes spec_base_ok
  constructor
  · rintro (h | ⟨j, hj, h⟩)
    · exact Or.inl h
    · exact Or.inr ⟨j, hj, by rw [Nat.pow_mod]; exact h⟩
  · rintro (h | ⟨j, hj, h⟩)
    · exact Or.inl h
    · exact Or.inr ⟨j, hj, by rw [← Nat.pow_mod]; exact h⟩

theorem forall_mem_a_iff (P : Nat → Prop) :
    (∀ ai, ai ∈ a → P ai) ↔ ∀ i, i < BASELEN → P (a.getD i 0) := by
  have hlen : a.length = BASELEN := rfl
  constructor
  · intro h i hi
    have hl : i < a.length := by rw [hlen]; exact hi
    rw [List.getD_eq_getElem _ _ hl]
    exact h _ (List.getElem_mem hl)
  · intro h ai hmem
    obtain ⟨i, hi, rfl⟩ := List.getElem_of_mem hmem
    have := h i (by rw [← hlen]; exact hi)
    rwa [List.getD_eq_getElem _ _ hi] at this

/-- C13: for every odd `n ≥ 5` below `2 ^ 64` with `n - 1 = 2 ^ k * q`, `q` odd,
`miller_rabin n` returns the verdict of the specification, which consults only the
bases below `n - 1`: PRIME if and only if every base `a_i < n - 1` satisfies
`a_i ^ q mod n = 1` or `(a_i ^ q) ^ (2 ^ j) mod n = n - 1` for some `j < k`, and
COMPOSITE if and only if some such base satisfies neither. -/
theorem miller_rabin_refines_spec (n k q : Nat) (h5 : 5 ≤ n) (hodd : n % 2 = 1)
    (hn : n < 2 ^ 64) (hq : q % 2 = 1) (hkq : n - 1 = 2 ^ k * q) :
    miller_rabin n = .ok (miller_rabin_spec n k q)
      ∧ (miller_rabin n = .ok Verdict.PRIME ↔
          ∀ ai, ai ∈ a → ai < n - 1 → spec_base_ok n k q ai)
      ∧ (miller_rabin n = .ok Verdict.COMPOSITE ↔
          ∃ ai, ai ∈ a ∧ ai < n - 1 ∧ ¬ spec_base_ok n k q ai) := by
  obtain ⟨v, hv, hiff⟩ := miller_rabin_eq n k q h5 hodd hn hq hkq.symm
  have hall : v = Verdict.PRIME ↔ ∀ ai, ai ∈ a → ai < n - 1 → spec_base_ok n k q ai := by
    rw [hiff, forall_mem_a_iff (fun ai => ai < n - 1 → spec_base_ok n k q ai)]
    constructor
    · intro h i hi ht
      exact (passes_iff_spec_base_ok n k q _).1 (h i hi ht)
    · intro h i hi ht
      exact (passes_iff_spec_base_ok n k q _).2 (h i hi ht)
  have hfilter : (∀ ai ∈ a.filter (fun x => decide (x < n - 1)), spec_base_ok n k q ai) ↔
      ∀ ai, ai ∈ a → ai < n - 1 → spec_base_ok n k q ai := by
    constructor
    · intro h ai hmem hlt
      exact h ai (List.mem_filter.2 ⟨hmem, decide_eq_true hlt⟩)
    · intro h ai hmem
      obtain ⟨h1, h2⟩ := List.mem_filter.1 hmem
      exact h ai h1 (of_decide_eq_true h2)
  rw [hv]
  refine ⟨?_, ?_, ?_⟩
  · unfold miller_rabin_spec
    by_cases hp : v = Verdict.PRIME
    · rw [if_pos (hfilter.2 (hall.1 hp)), hp]
    · rw [if_neg (fun hc => hp (hall.2 (hfilter.1 hc)))]
      cases v with
      | PRIME => exact absurd rfl hp
      | COMPOSITE => rfl
  · constructor
    · intro h
      exact hall.1 (Except.ok.inj h)
    · intro h
      rw [hall.2 h]
  · constructor
    · intro h
      have hc : v = Verdict.COMPOSITE := Except.ok.inj h
      by_contra hne
      have hp : v = Verdict.PRIME := hall.2 fun ai hmem hlt => by
        by_contra hfail
        exact hne ⟨ai, hmem, hlt, hfail⟩
      rw [hc] at hp
      cases hp
    · rintro ⟨ai, hmem, hlt, hfail⟩
      cases v with
      | PRIME => exact absurd (hall.1 rfl ai hmem hlt) hfail
      | COMPOSITE => rfl

theorem miller_rabin_refines_spec_witness :
    miller_rabin 561 = .ok (miller_rabin_spec 561 4 35)
      ∧ (miller_rabin 561 = .ok Verdict.PRIME ↔
          ∀ ai, ai ∈ a → ai < 561 - 1 → spec_base_ok 561 4 35 ai)
      ∧ (miller_rabin 561 = .ok Verdict.COMPOSITE ↔
          ∃ ai, ai ∈ a ∧ ai < 561 - 1 ∧ ¬ spec_base_ok 561 4 35 ai) :=
  miller_rabin_refines_spec 561 4 35 (by decide) (by decide) (by decide) (by decide)
    (by decide)

/-! ## Events of a run of `miller_rabin` -/

theorem andThen_snd {α β : Type} (x : Traced α) (f : α → Traced β) :
    (Traced.andThen x f).2 = x.2 >>= fun v => (f v).2 := by
  obtain ⟨l, r⟩ := x
  cases r <;> rfl

theorem mem_andThen {α β : Type} (x : Traced α) (f : α → Traced β) (ev : Event)
    (h : ev ∈ (Traced.andThen x f).1) : ev ∈ x.1 ∨ ∃ v, x.2 = .ok v ∧ ev ∈ (f v).1 := by
  obtain ⟨l, r⟩ := x
  cases r with
  | error e => exact Or.inl h
  | ok v =>
    rcases List.mem_append.1 h with h1 | h1
    · exact Or.inl h1
    · exact Or.inr ⟨v, rfl, h1⟩

theorem mem_pow_traced {x y m : Nat} {ev : Event} (h : ev ∈ (pow_traced x y m).1) :
    ev = Event.powCall x y m :=
  List.mem_singleton.1 h

theorem mem_read_flag_traced {i : Nat} {s : Bool} {inc : Option Nat} {ev : Event}
    (h : ev ∈ (read_flag_traced i s inc).1) : ev = Event.flagRead i s inc :=
  List.mem_singleton.1 h

theorem not_mem_ret {α : Type} {x : α} {ev : Event} (h : ev ∈ (Traced.ret x).1) : False :=
  List.not_mem_nil _ h

theorem not_mem_lift {α : Type} {x : Except Fault α} {ev : Event}
    (h : ev ∈ (Traced.lift x).1) : False :=
  List.not_mem_nil _ h

/-- One iteration of the traced inner loop, written out. -/
theorem inner_loop_traced_succ (ai q n k fuel j : Nat) :
    inner_loop_traced ai q n k (fuel + 1) j =
      if j < k then
        Traced.andThen (pow_traced ai q n) fun x =>
          Traced.andThen (pow_traced 2 j (wsub n 1)) fun e =>
            Traced.andThen (pow_traced x e n) fun y =>
              if y = wsub n 1 then Traced.ret true
              else inner_loop_traced ai q n k fuel (j + 1)
      else Traced.ret false := rfl

/-- One iteration of the traced outer loop, written out. -/
theorem witness_loop_traced_succ (n k q fuel i : Nat) (inc : Option Nat) :
    witness_loop_traced n k q (fuel + 1) i inc =
      if i < BASELEN then
        if a.getD i 0 < wsub n 1 then
          Traced.andThen (pow_traced (a.getD i 0) q n) fun x =>
            if x = 1 then witness_loop_traced n k q fuel (i + 1) (some 1)
            else
              Traced.andThen (inner_loop_traced (a.getD i 0) q n k k 0) fun found =>
                Traced.andThen (read_flag_traced i false (some (if found then 1 else 0)))
                  fun v =>
                    if v = 0 then Traced.ret Verdict.COMPOSITE
                    else witness_loop_traced n k q fuel (i + 1) (some v)
        else
          Traced.andThen (read_flag_traced i true inc) fun v =>
            if v = 0 then Traced.ret Verdict.COMPOSITE
            else witness_loop_traced n k q fuel (i + 1) (some v)
      else Traced.ret Verdict.PRIME := rfl

/-- The function with its events, written out. -/
theorem miller_rabin_traced_eq (n : Nat) :
    miller_rabin_traced n =
      if n = 2 ∨ n = 3 then Traced.ret Verdict.PRIME
      else if n = 1 ∨ n % 2 = 0 then Traced.ret Verdict.COMPOSITE
      else
        Traced.andThen (Traced.lift (decompose_loop 64 0 (wsub n 1))) fun kq =>
          witness_loop_traced n kq.1 kq.2 BASELEN 0 none := rfl

/-- Dropping the events of the traced inner loop gives the inner loop. -/
theorem inner_loop_traced_snd (ai q n k : Nat) :
    ∀ (fuel j : Nat), (inner_loop_traced ai q n k fuel j).2 = inner_loop ai q n k fuel j := by
  intro fuel
  induction fuel with
  | zero =>
    intro j
    unfold inner_loop_traced inner_loop
    by_cases hlt : j < k
    · rw [if_pos hlt, if_pos hlt]
      rfl
    · rw [if_neg hlt, if_neg hlt]
      rfl
  | succ fuel ih =>
    intro j
    rw [inner_loop_traced_succ]
    unfold inner_loop
    by_cases hlt : j < k
    · rw [if_pos hlt, if_pos hlt, andThen_snd]
      congr 1
      funext x
      rw [andThen_snd]
      congr 1
      funext e
      rw [andThen_snd]
      congr 1
      funext y
      by_cases hy : y = wsub n 1
      · rw [if_pos hy, if_pos hy]
        rfl
      · rw [if_neg hy, if_neg hy]
        exact ih (j + 1)
    · rw [if_neg hlt, if_neg hlt]
      rfl

theorem witness_loop_zero (n k q i : Nat) (inc : Option Nat) :
    witness_loop n k q 0 i inc =
      if i < BASELEN then .error Fault.outOfFuel else .ok Verdict.PRIME := rfl

theorem witness_loop_traced_zero (n k q i : Nat) (inc : Option Nat) :
    witness_loop_traced n k q 0 i inc =
      if i < BASELEN then Traced.lift (.error Fault.outOfFuel)
      else Traced.ret Verdict.PRIME := rfl

/-- Dropping the events of the traced outer loop gives the outer loop. -/
theorem witness_loop_traced_snd (n k q : Nat) :
    ∀ (fuel i : Nat) (inc : Option Nat),
      (witness_loop_traced n k q fuel i inc).2 = witness_loop n k q fuel i inc := by
  intro fuel
  induction fuel with
  | zero =>
    intro i inc
    rw [witness_loop_traced_zero, witness_loop_zero]
    by_cases hlt : i < BASELEN
    · rw [if_pos hlt, if_pos hlt]
      rfl
    · rw [if_neg hlt, if_neg hlt]
      rfl
  | succ fuel ih =>
    intro i inc
    rw [witness_loop_traced_succ, witness_loop_succ]
    by_cases hlt : i < BASELEN
    · rw [if_pos hlt, if_pos hlt]
      by_cases ht : a.getD i 0 < wsub n 1
      · rw [if_pos ht, if_pos ht, andThen_snd]
        congr 1
        funext x
        by_cases hx : x = 1
        · rw [if_pos hx, if_pos hx]
          exact ih (i + 1) (some 1)
        · rw [if_neg hx, if_neg hx, andThen_snd, inner_loop_traced_snd]
          congr 1
          funext found
          rw [andThen_snd]
          cases found with
          | true =>
            have e := ih (i + 1) (some 1)
            simpa [read_flag_traced, bind, Except.bind] using e
          | false =>
            simp [read_flag_traced, bind, Except.bind, Traced.ret]
      · rw [if_neg ht, if_neg ht, andThen_snd]
        cases inc with
        | none => rfl
        | some v =>
          by_cases hv : v = 0
          · simp [read_flag_traced, bind, Except.bind, Traced.ret, hv]
          · have e := ih (i + 1) (some v)
            simpa [read_flag_traced, bind, Except.bind, hv] using e
    · rw [if_neg hlt, if_neg hlt]
      rfl

theorem bind_pair_congr {β : Type} (x : Except Fault (Nat × Nat))
    (F : Nat → Nat → Except Fault β) (G : Nat × Nat → Except Fault β)
    (h : ∀ k q, G (k, q) = F k q) :
    (x >>= G) = (do
      let (k, q) ← x
      F k q) := by
  cases x with
  | error e => rfl
  | ok kq =>
    obtain ⟨k, q⟩ := kq
    simp only [bind, Except.bind]
    exact h k q

/-- Dropping the events after the decomposition, for any number `B` of iterations. -/
theorem after_decompose_snd (n B : Nat) (d : Except Fault (Nat × Nat)) :
    (Traced.andThen (Traced.lift d) fun kq => witness_loop_traced n kq.1 kq.2 B 0 none).2
      = (do
          let (k, q) ← d
          witness_loop n k q B 0 none) := by
  cases d with
  | error e => rfl
  | ok kq =>
    obtain ⟨k, q⟩ := kq
    exact witness_loop_traced_snd n k q B 0 none

/-- Dropping the events of the traced function gives `miller_rabin`. -/
theorem miller_rabin_traced_snd (n : Nat) : (miller_rabin_traced n).2 = miller_rabin n := by
  rw [miller_rabin_traced_eq]
  unfold miller_rabin
  by_cases h23 : n = 2 ∨ n = 3
  · rw [if_pos h23, if_pos h23]
    rfl
  · rw [if_neg h23, if_neg h23]
    by_cases h1e : n = 1 ∨ n % 2 = 0
    · rw [if_pos h1e, if_pos h1e]
      rfl
    · rw [if_neg h1e, if_neg h1e]
      exact after_decompose_snd n BASELEN (decompose_loop 64 0 (wsub n 1))

/-- Every event of the inner loop is a call of `mod_pow` with modulus `n` or `n - 1`. -/
theorem inner_loop_traced_events (ai q n k : Nat) :
    ∀ (fuel j : Nat) (ev : Event), ev ∈ (inner_loop_traced ai q n k fuel j).1 →
      ∃ x y m, ev = Event.powCall x y m ∧ (m = n ∨ m = wsub n 1) := by
  intro fuel
  induction fuel with
  | zero =>
    intro j ev h
    unfold inner_loop_traced at h
    by_cases hlt : j < k
    · rw [if_pos hlt] at h
      exact (not_mem_lift h).elim
    · rw [if_neg hlt] at h
      exact (not_mem_ret h).elim
  | succ fuel ih =>
    intro j ev h
    rw [inner_loop_traced_succ] at h
    by_cases hlt : j < k
    · rw [if_pos hlt] at h
      rcases mem_andThen _ _ _ h with h1 | ⟨x, _, h1⟩
      · exact ⟨_, _, _, mem_pow_traced h1, Or.inl rfl⟩
      · rcases mem_andThen _ _ _ h1 with h2 | ⟨e, _, h2⟩
        · exact ⟨_, _, _, mem_pow_traced h2, Or.inr rfl⟩
        · rcases mem_andThen _ _ _ h2 with h3 | ⟨y, _, h3⟩
          · exact ⟨_, _, _, mem_pow_traced h3, Or.inl rfl⟩
          · by_cases hy : y = wsub n 1
            · rw [if_pos hy] at h3
              exact (not_mem_ret h3).elim
            · rw [if_neg hy] at h3
              exact ih (j + 1) ev h3
    · rw [if_neg hlt] at h
      exact (not_mem_ret h).elim

/-- Events of the outer loop, started with `inconclusive` already 1 or with a base
that is tested: calls of `mod_pow` with modulus `n` or `n - 1`, reads of the flag
after a tested base (an assigned value), and reads at a skipped base, which see 1. -/
theorem witness_loop_traced_events (n k q : Nat) :
    ∀ (fuel i : Nat) (inc : Option Nat), (inc = some 1 ∨ a.getD i 0 < wsub n 1) →
      ∀ ev, ev ∈ (witness_loop_traced n k q fuel i inc).1 →
        (∃ x y m, ev = Event.powCall x y m ∧ (m = n ∨ m = wsub n 1))
          ∨ (∃ j v, ev = Event.flagRead j false (some v))
          ∨ (∃ j, ev = Event.flagRead j true (some 1)) := by
  intro fuel
  induction fuel with
  | zero =>
    intro i inc _ ev h
    rw [witness_loop_traced_zero] at h
    by_cases hlt : i < BASELEN
    · rw [if_pos hlt] at h
      exact (not_mem_lift h).elim
    · rw [if_neg hlt] at h
      exact (not_mem_ret h).elim
  | succ fuel ih =>
    intro i inc hinc ev h
    rw [witness_loop_traced_succ] at h
    by_cases hlt : i < BASELEN
    · rw [if_pos hlt] at h
      by_cases ht : a.getD i 0 < wsub n 1
      · rw [if_pos ht] at h
        rcases mem_andThen _ _ _ h with h1 | ⟨x, _, h1⟩
        · exact Or.inl ⟨_, _, _, mem_pow_traced h1, Or.inl rfl⟩
        · by_cases hx : x = 1
          · rw [if_pos hx] at h1
            exact ih (i + 1) (some 1) (Or.inl rfl) ev h1
          · rw [if_neg hx] at h1
            rcases mem_andThen _ _ _ h1 with h2 | ⟨found, _, h2⟩
            · exact Or.inl (inner_loop_traced_events _ q n k k 0 ev h2)
            · rcases mem_andThen _ _ _ h2 with h3 | ⟨v, hv, h3⟩
              · exact Or.inr (Or.inl ⟨i, _, mem_read_flag_traced h3⟩)
              · have hv1 : (if found = true then 1 else 0) = v := Except.ok.inj hv
                by_cases hv0 : v = 0
                · rw [if_pos hv0] at h3
                  exact (not_mem_ret h3).elim
                · rw [if_neg hv0] at h3
                  have hv2 : v = 1 := by
                    cases found with
                    | true => exact hv1.symm
                    | false => exact absurd hv1.symm hv0
                  rw [hv2] at h3
                  exact ih (i + 1) (some 1) (Or.inl rfl) ev h3
      · rw [if_neg ht] at h
        rcases hinc with hinc | hinc
        · subst hinc
          rcases mem_andThen _ _ _ h with h1 | ⟨v, hv, h1⟩
          · exact Or.inr (Or.inr ⟨i, mem_read_flag_traced h1⟩)
          · have hv1 : 1 = v := Except.ok.inj hv
            subst hv1
            rw [if_neg (by decide)] at h1
            exact ih (i + 1) (some 1) (Or.inl rfl) ev h1
        · exact absurd hinc ht
    · rw [if_neg hlt] at h
      exact (not_mem_ret h).elim

/-- Events after the decomposition, for any number `B` of iterations. -/
theorem after_decompose_events (n B : Nat) (d : Except Fault (Nat × Nat))
    (h0 : a.getD 0 0 < wsub n 1) (ev : Event)
    (h : ev ∈ (Traced.andThen (Traced.lift d)
      fun kq => witness_loop_traced n kq.1 kq.2 B 0 none).1) :
    (∃ x y m, ev = Event.powCall x y m ∧ (m = n ∨ m = wsub n 1))
      ∨ (∃ j v, ev = Event.flagRead j false (some v))
      ∨ (∃ j, ev = Event.flagRead j true (some 1)) := by
  rcases mem_andThen _ _ _ h with h1 | ⟨kq, _, h1⟩
  · exact (not_mem_lift h1).elim
  · exact witness_loop_traced_events n kq.1 kq.2 B 0 none (Or.inr h0) ev h1

/-- Events of a run of `miller_rabin`: there are none unless `n` is odd and at
least 5, and then they are as described for the outer loop. -/
theorem miller_rabin_traced_events (n : Nat) (hn : n < U64) (ev : Event)
    (h : ev ∈ (miller_rabin_traced n).1) :
    (n % 2 = 1 ∧ 5 ≤ n) ∧
      ((∃ x y m, ev = Event.powCall x y m ∧ (m = n ∨ m = n - 1))
        ∨ (∃ j v, ev = Event.flagRead j false (some v))
        ∨ (∃ j, ev = Event.flagRead j true (some 1))) := by
  rw [miller_rabin_traced_eq] at h
  by_cases h23 : n = 2 ∨ n = 3
  · rw [if_pos h23] at h
    exact (not_mem_ret h).elim
  · rw [if_neg h23] at h
    by_cases h1e : n = 1 ∨ n % 2 = 0
    · rw [if_pos h1e] at h
      exact (not_mem_ret h).elim
    · rw [if_neg h1e] at h
      have hodd : n % 2 = 1 := by omega
      have h5 : 5 ≤ n := by omega
      have hsub : wsub n 1 = n - 1 := wsub_of_le (by omega) hn
      have h0 : a.getD 0 0 < wsub n 1 := by
        rw [hsub]
        exact lt_of_le_of_lt (a_getD_le_first) (by omega)
      have hev := after_decompose_events n BASELEN (decompose_loop 64 0 (wsub n 1)) h0 ev h
      rw [hsub] at hev
      exact ⟨⟨hodd, h5⟩, hev⟩

/-- For every 64-bit `n` a run of `miller_rabin` ends with a verdict, not a fault. -/
theorem miller_rabin_total (n : Nat) (hn : n < U64) : ∃ v, miller_rabin n = .ok v := by
  by_cases h23 : n = 2 ∨ n = 3
  · exact ⟨Verdict.PRIME, by unfold miller_rabin; rw [if_pos h23]⟩
  · by_cases h1e : n = 1 ∨ n % 2 = 0
    · exact ⟨Verdict.COMPOSITE, by unfold miller_rabin; rw [if_neg h23, if_pos h1e]⟩
    · have hodd : n % 2 = 1 := by omega
      have h5 : 5 ≤ n := by omega
      have hne : n - 1 ≠ 0 := by omega
      obtain ⟨k, q, hqodd, hkq⟩ := Nat.exists_eq_two_pow_mul_odd hne
      obtain ⟨v, hv, _⟩ := miller_rabin_eq n k q h5 hodd hn (Nat.odd_iff.1 hqodd) hkq.symm
      exact ⟨v, hv⟩

/-- With a non-zero modulus no path of `mod_add` takes a remainder by zero. -/
theorem mod_add_no_div_by_zero (u w m : Nat) (hm : m ≠ 0) :
    mod_add u w m ≠ .error Fault.divByZero := by
  unfold mod_add
  by_cases h : u < m ∧ w < m
  · rw [if_pos h]
    by_cases hge : u ≥ wsub m w
    · rw [if_pos hge]
      intro hc
      cases hc
    · rw [if_neg hge]
      intro hc
      cases hc
  · rw [if_neg h, if_neg hm]
    intro hc
    cases hc

/-! ## Claims on the calls and on the flag of the tester -/

/-- C11: for every 64-bit `n`, no call that `miller_rabin n` makes to the kernel
passes modulus 0: every recorded call of `mod_pow` occurs only for odd `n ≥ 5`, its
modulus is `n` or `n - 1` and so at least 4, hence no `% m` inside `mod_add`
divides by zero; and the run ends with a verdict, not with a fault. -/
theorem kernel_modulus_never_zero (n : Nat) (hn : n < 2 ^ 64) :
    (miller_rabin_traced n).2 = miller_rabin n
      ∧ (∃ v, miller_rabin n = .ok v)
      ∧ ∀ x y m, Event.powCall x y m ∈ (miller_rabin_traced n).1 →
          n % 2 = 1 ∧ 5 ≤ n ∧ (m = n ∨ m = n - 1) ∧ 4 ≤ m
            ∧ ∀ u w, mod_add u w m ≠ .error Fault.divByZero := by
  refine ⟨miller_rabin_traced_snd n, miller_rabin_total n hn, ?_⟩
  intro x y m hmem
  obtain ⟨⟨hodd, h5⟩, hev⟩ := miller_rabin_traced_events n hn _ hmem
  have hm : m = n ∨ m = n - 1 := by
    rcases hev with ⟨x1, y1, m1, he, hm1⟩ | ⟨j, v, he⟩ | ⟨j, he⟩
    · cases he
      exact hm1
    · cases he
    · cases he
  have h4 : 4 ≤ m := by omega
  exact ⟨hodd, h5, hm, h4, fun u w => mod_add_no_div_by_zero u w m (by omega)⟩

theorem kernel_modulus_never_zero_witness :
    (miller_rabin_traced 9).2 = miller_rabin 9
      ∧ (∃ v, miller_rabin 9 = .ok v)
      ∧ ∀ x y m, Event.powCall x y m ∈ (miller_rabin_traced 9).1 →
          9 % 2 = 1 ∧ 5 ≤ 9 ∧ (m = 9 ∨ m = 9 - 1) ∧ 4 ≤ m
            ∧ ∀ u w, mod_add u w m ≠ .error Fault.divByZero :=
  kernel_modulus_never_zero 9 (by decide)

/-- C19: for every odd `n ≥ 5` below `2 ^ 64` the first base 2 is below `n - 1`, so
the flag `inconclusive` is assigned before it is first read: every recorded read at
`if (!inconclusive)` sees an assigned value and the run ends with a verdict; and
every read at a skipped base (`a[i] ≥ n - 1`) sees the value 1 left by the previous
iteration, after which the loop just moves on to the next base, so a skipped base
never makes `miller_rabin` return COMPOSITE. -/
theorem flag_assigned_before_read (n : Nat) (h5 : 5 ≤ n) (hodd : n % 2 = 1)
    (hn : n < 2 ^ 64) :
    (a.getD 0 0 = 2 ∧ a.getD 0 0 < wsub n 1)
      ∧ (miller_rabin_traced n).2 = miller_rabin n
      ∧ (∃ v, miller_rabin n = .ok v)
      ∧ (∀ i s v, Event.flagRead i s v ∈ (miller_rabin_traced n).1 → v ≠ none)
      ∧ (∀ i v, Event.flagRead i true v ∈ (miller_rabin_traced n).1 → v = some 1)
      ∧ (∀ k q fuel i, i < BASELEN → ¬ a.getD i 0 < wsub n 1 →
          witness_loop n k q (fuel + 1) i (some 1)
            = witness_loop n k q fuel (i + 1) (some 1)) := by
  have hn64 : n < U64 := hn
  have h0 : a.getD 0 0 < wsub n 1 := by
    rw [wsub_of_le (by omega) hn64]
    exact lt_of_le_of_lt a_getD_le_first (by omega)
  refine ⟨⟨by decide, h0⟩, miller_rabin_traced_snd n, miller_rabin_total n hn64, ?_, ?_, ?_⟩
  · intro i s v hmem
    obtain ⟨_, hev⟩ := miller_rabin_traced_events n hn64 _ hmem
    rcases hev with ⟨x1, y1, m1, he, _⟩ | ⟨j, w, he⟩ | ⟨j, he⟩
    · cases he
    · cases he
      exact Option.some_ne_none _
    · cases he
      exact Option.some_ne_none _
  · intro i v hmem
    obtain ⟨_, hev⟩ := miller_rabin_traced_events n hn64 _ hmem
    rcases hev with ⟨x1, y1, m1, he, _⟩ | ⟨j, w, he⟩ | ⟨j, he⟩
    · cases he
    · cases he
    · cases he
      rfl
  · intro k q fuel i hi ht
    rw [witness_loop_succ, if_pos hi, if_neg ht]
    simp only [one_ne_zero, if_false]

theorem flag_assigned_before_read_witness :
    (a.getD 0 0 = 2 ∧ a.getD 0 0 < wsub 5 1)
      ∧ (miller_rabin_traced 5).2 = miller_rabin 5
      ∧ (∃ v, miller_rabin 5 = .ok v)
      ∧ (∀ i s v, Event.flagRead i s v ∈ (miller_rabin_traced 5).1 → v ≠ none)
      ∧ (∀ i v, Event.flagRead i true v ∈ (miller_rabin_traced 5).1 → v = some 1)
      ∧ (∀ k q fuel i, i < BASELEN → ¬ a.getD i 0 < wsub 5 1 →
          witness_loop 5 k q (fuel + 1) i (some 1)
            = witness_loop 5 k q fuel (i + 1) (some 1)) :=
  flag_assigned_before_read 5 (by decide) (by decide) (by decide)

/-! ## The skip guard on the run -/

end MillerRabin
